import Mathlib

/-!
Verification model of `src/main.py` (salvage-json-from-csv).

The program extracts JSON payloads embedded as oversized fields inside CSV
rows.  We embed its three operations — `extract_single_row`,
`extract_all_rows` and `validate_json_file` — as pure Lean functions over the
list of already-parsed CSV records (a record is a `List String` of fields;
CSV dialect sniffing and the `csv.reader` itself are Python library code and
out of scope of the claims, which all quantify over *parsed* rows).

File writes are modelled by returning the written contents; console output is
modelled by structured message values.  `json.loads` (Python's strict JSON
parser) is modelled by a fuel-based recursive-descent parser over `List Char`,
faithful to the `json` module's grammar: JSON whitespace is ` \t\n\r`, numbers
follow the `-?(0|[1-9][0-9]*)(\.[0-9]+)?([eE][+-]?[0-9]+)?` longest-match rule
with the `NaN`/`Infinity`/`-Infinity` extensions, strings require the usual
escapes and refuse raw control characters, and any trailing non-whitespace
after the top-level value is an error ("Extra data").  Python's `str.strip()`
is modelled on ASCII whitespace.
-/

namespace Salvage

/-- The four JSON whitespace characters accepted by Python's `json` scanner. -/
def isJsonWs (c : Char) : Bool :=
  c = ' ' ∨ c = '\t' ∨ c = '\n' ∨ c = '\r'

/-- ASCII whitespace stripped by Python's `str.strip()` (we restrict the model
to ASCII: space, tab, newline, carriage return, vertical tab, form feed). -/
def isPyWs (c : Char) : Bool :=
  c = ' ' ∨ c = '\t' ∨ c = '\n' ∨ c = '\r' ∨ c = '\x0b' ∨ c = '\x0c'

/-- Drop leading JSON whitespace (the `_w(s, idx).end()` steps of the
`json.decoder` scanner). -/
def skipWs : List Char → List Char
  | [] => []
  | c :: cs => if isJsonWs c then skipWs cs else c :: cs

/-- Drop leading Python whitespace (left half of `str.strip()`). -/
def pyStripL : List Char → List Char
  | [] => []
  | c :: cs => if isPyWs c then pyStripL cs else c :: cs

/-- Drop trailing Python whitespace (right half of `str.strip()`). -/
def pyStripR (cs : List Char) : List Char :=
  (pyStripL cs.reverse).reverse

/-- Python's `s.strip()` on the character list of `s`. -/
def pyStrip (s : String) : List Char :=
  pyStripR (pyStripL s.data)

/-! ## The model of `json.loads` -/

/-- A parsed JSON value.  Numbers and strings keep their raw source
characters: the program only ever asks whether a parse succeeds, never for
the decoded value, so decoding escapes or numerals would be dead model. -/
inductive JValue where
  | null : JValue
  | bool (b : Bool) : JValue
  | num (raw : List Char) : JValue
  | str (raw : List Char) : JValue
  | arr (elems : List JValue) : JValue
  | obj (members : List (List Char × JValue)) : JValue

/-- Longest run of ASCII digits at the head, together with the rest. -/
def scanDigits : List Char → List Char × List Char
  | [] => ([], [])
  | c :: cs =>
    if c.isDigit then
      let p := scanDigits cs
      (c :: p.1, p.2)
    else ([], c :: cs)

/-- The integer part of the JSON number grammar: `0 | [1-9][0-9]*`. -/
def scanIntPart : List Char → Option (List Char × List Char)
  | [] => none
  | c :: cs =>
    if c = '0' then some (['0'], cs)
    else if c.isDigit then
      let p := scanDigits cs
      some (c :: p.1, p.2)
    else none

/-- Optional fraction `(\.[0-9]+)?` — longest match, so a dot not followed by
a digit is left unread. -/
def scanFrac : List Char → List Char × List Char
  | [] => ([], [])
  | c :: cs =>
    if c = '.' then
      match scanDigits cs with
      | ([], _) => ([], c :: cs)
      | (ds, r) => (c :: ds, r)
    else ([], c :: cs)

/-- After a confirmed `e`/`E`: an optional sign, then one or more digits,
else the whole exponent is left unread. -/
def scanExpTail (e : Char) : List Char → List Char × List Char
  | [] => ([], [e])
  | s :: cs' =>
    if s = '+' ∨ s = '-' then
      match scanDigits cs' with
      | ([], _) => ([], e :: s :: cs')
      | (d0 :: ds, r) => (e :: s :: d0 :: ds, r)
    else
      match scanDigits (s :: cs') with
      | ([], _) => ([], e :: s :: cs')
      | (d0 :: ds, r) => (e :: d0 :: ds, r)

/-- Optional exponent `([eE][+-]?[0-9]+)?` — longest match, so an `e` not
followed by (sign and) digits is left unread. -/
def scanExp : List Char → List Char × List Char
  | [] => ([], [])
  | e :: cs => if e = 'e' ∨ e = 'E' then scanExpTail e cs else ([], e :: cs)

/-- The fraction-and-exponent tail of a number token, after the integer
part. -/
def scanFracExp (cs : List Char) : List Char × List Char :=
  let f := scanFrac cs
  let e := scanExp f.2
  (f.1 ++ e.1, e.2)

/-- The JSON number token at the head of the input (Python's `NUMBER_RE`
longest match): optional minus, integer part, optional fraction, optional
exponent.  Returns the raw token and the rest. -/
def parseNumber (cs : List Char) : Option (List Char × List Char) :=
  match cs with
  | [] => none
  | c :: cs' =>
    if c = '-' then
      match scanIntPart cs' with
      | none => none
      | some (ip, r1) =>
        let fe := scanFracExp r1
        some ('-' :: ip ++ fe.1, fe.2)
    else
      match scanIntPart (c :: cs') with
      | none => none
      | some (ip, r1) =>
        let fe := scanFracExp r1
        some (ip ++ fe.1, fe.2)

/-- Is `c` an ASCII hexadecimal digit? -/
def isHex (c : Char) : Bool :=
  c.isDigit ∨ ('a' ≤ c ∧ c ≤ 'f') ∨ ('A' ≤ c ∧ c ≤ 'F')

/-- The body of a JSON string, entered just after the opening quote.  Returns
the raw body characters (escapes kept undecoded) and the rest of the input
after the closing quote.  Raw control characters below `0x20` are refused,
and escapes are limited to `"\/bfnrt` and `\uXXXX`, as in strict
`json.loads`. -/
def parseStringBody : List Char → Option (List Char × List Char)
  | [] => none
  | c :: cs =>
    if c = '"' then some ([], cs)
    else if c = '\\' then
      match cs with
      | [] => none
      | e :: cs' =>
        if e = 'u' then
          match cs' with
          | h1 :: h2 :: h3 :: h4 :: cs'' =>
            if isHex h1 ∧ isHex h2 ∧ isHex h3 ∧ isHex h4 then
              match parseStringBody cs'' with
              | some (body, r) => some (c :: e :: h1 :: h2 :: h3 :: h4 :: body, r)
              | none => none
            else none
          | _ => none
        else if e = '"' ∨ e = '\\' ∨ e = '/' ∨ e = 'b' ∨ e = 'f' ∨ e = 'n'
            ∨ e = 'r' ∨ e = 't' then
          match parseStringBody cs' with
          | some (body, r) => some (c :: e :: body, r)
          | none => none
        else none
    else if c.toNat < 32 then none
    else
      match parseStringBody cs with
      | some (body, r) => some (c :: body, r)
      | none => none

/-- Match the exact characters `pat` at the head of the input. -/
def expectChars : List Char → List Char → Option (List Char)
  | [], cs => some cs
  | _ :: _, [] => none
  | p :: ps, c :: cs => if c = p then expectChars ps cs else none

mutual

/-- One JSON value at the head of the input (no leading whitespace expected;
callers skip it).  `fuel` only forces termination: every nested call consumes
at least one character first, so `length + 2` fuel never runs out. -/
def parseVal : Nat → List Char → Option (JValue × List Char)
  | 0, _ => none
  | _ + 1, [] => none
  | fuel + 1, c :: cs =>
    if c = '"' then
      match parseStringBody cs with
      | some (body, r) => some (.str body, r)
      | none => none
    else if c = '\x7b' then
      match skipWs cs with
      | [] => none
      | d :: r =>
        if d = '\x7d' then some (.obj [], r)
        else
          match parseMembers fuel (d :: r) with
          | some (ms, r2) => some (.obj ms, r2)
          | none => none
    else if c = '[' then
      match skipWs cs with
      | [] => none
      | d :: r =>
        if d = ']' then some (.arr [], r)
        else
          match parseElems fuel (d :: r) with
          | some (es, r2) => some (.arr es, r2)
          | none => none
    else if c = 't' then
      match expectChars ['r', 'u', 'e'] cs with
      | some r => some (.bool true, r)
      | none => none
    else if c = 'f' then
      match expectChars ['a', 'l', 's', 'e'] cs with
      | some r => some (.bool false, r)
      | none => none
    else if c = 'n' then
      match expectChars ['u', 'l', 'l'] cs with
      | some r => some (.null, r)
      | none => none
    else if c = 'N' then
      match expectChars ['a', 'N'] cs with
      | some r => some (.num ['N', 'a', 'N'], r)
      | none => none
    else if c = 'I' then
      match expectChars ['n', 'f', 'i', 'n', 'i', 't', 'y'] cs with
      | some r => some (.num ['I', 'n', 'f'], r)
      | none => none
    else if c = '-' then
      match cs with
      | [] => none
      | c2 :: cs' =>
        if c2 = 'I' then
          match expectChars ['n', 'f', 'i', 'n', 'i', 't', 'y'] cs' with
          | some r => some (.num ['-', 'I', 'n', 'f'], r)
          | none => none
        else
          match parseNumber (c :: c2 :: cs') with
          | some (raw, r) => some (.num raw, r)
          | none => none
    else if c.isDigit then
      match parseNumber (c :: cs) with
      | some (raw, r) => some (.num raw, r)
      | none => none
    else none

/-- The members of an object, entered after `{` and leading whitespace, on a
nonempty member list (the empty object is handled by `parseVal`).  Consumes
the closing `}`. -/
def parseMembers : Nat → List Char → Option (List (List Char × JValue) × List Char)
  | 0, _ => none
  | fuel + 1, cs =>
    match cs with
    | [] => none
    | c :: cs' =>
      if c = '"' then
        match parseStringBody cs' with
        | none => none
        | some (key, r1) =>
          match skipWs r1 with
          | [] => none
          | d :: r2 =>
            if d = ':' then
              match parseVal fuel (skipWs r2) with
              | none => none
              | some (v, r3) =>
                match skipWs r3 with
                | [] => none
                | d2 :: r4 =>
                  if d2 = ',' then
                    match parseMembers fuel (skipWs r4) with
                    | some (ms, r5) => some ((key, v) :: ms, r5)
                    | none => none
                  else if d2 = '\x7d' then some ([(key, v)], r4)
                  else none
            else none
      else none

/-- The elements of an array, entered after `[` and leading whitespace, on a
nonempty element list (the empty array is handled by `parseVal`).  Consumes
the closing `]`. -/
def parseElems : Nat → List Char → Option (List JValue × List Char)
  | 0, _ => none
  | fuel + 1, cs =>
    match parseVal fuel cs with
    | none => none
    | some (v, r1) =>
      match skipWs r1 with
      | [] => none
      | d :: r2 =>
        if d = ',' then
          match parseElems fuel (skipWs r2) with
          | some (es, r3) => some (v :: es, r3)
          | none => none
        else if d = ']' then some ([v], r2)
        else none

end

/-- Model of `json.loads` on a character list: skip leading whitespace, parse
one value, and require that only whitespace remains ("Extra data"
otherwise). -/
def jsonLoadsList (cs : List Char) : Option JValue :=
  match parseVal (cs.length + 2) (skipWs cs) with
  | none => none
  | some (v, rest) => if skipWs rest = [] then some v else none

/-- Model of `json.loads` on a Python string. -/
def jsonLoads (s : String) : Option JValue :=
  jsonLoadsList s.data

/-! ## The extractors (`extract_single_row`, `extract_all_rows`) -/

/-- Model of `max(row, key=len)` (main.py lines 53 and 119): Python's `max` keeps the
current best and replaces it only on a strictly greater key, so the first
field of maximum character length wins.  The `if row else ""` guard of the
source is the `[]` case. -/
def max_by_len (row : List String) : String :=
  match row with
  | [] => ""
  | x :: xs => xs.foldl (fun best f => if best.length < f.length then f else best) x

/-- Outcome of the pre-write "quick validation" (main.py lines 68-81 and
132-148): the probe parse succeeded, the probe parse failed, or the trimmed
value starts with neither `[` nor `{` so no parse is attempted. -/
inductive Plaus where
  | looksValid : Plaus
  | validationFailed : Plaus
  | notJsonStart : Plaus
deriving DecidableEq

/-- The probe string `json_column[:1000] + close` built by the quick
validation (main.py lines 71-75 and 135-139): the first 1000 characters of
the *raw* value, with a closing bracket or brace appended. -/
def plausProbe (jc : String) (close : Char) : List Char :=
  jc.data.take 1000 ++ [close]

/-- The quick validation itself: dispatch on the first character of the
stripped value (`json_column.strip().startswith(...)`), build the probe,
and `json.loads` it; its outcome is advisory console output only. -/
def plausibility (jc : String) : Plaus :=
  match pyStrip jc with
  | [] => .notJsonStart
  | c :: _ =>
    if c = '[' then
      if (jsonLoadsList (plausProbe jc ']')).isSome then .looksValid else .validationFailed
    else if c = '\x7b' then
      if (jsonLoadsList (plausProbe jc '\x7d')).isSome then .looksValid else .validationFailed
    else .notJsonStart

/-- Console messages of `extract_single_row`, one constructor per `print`
that the claims talk about. -/
inductive Msg where
  /-- Report `✗ Row N is empty` -/
  | emptyRow (rowNumber : Nat) : Msg
  /-- Report `✗ No data found in row N` -/
  | noData (rowNumber : Nat) : Msg
  /-- Report `Found data: N chars` -/
  | foundData (nchars : Nat) : Msg
  /-- Report `✓ Saved to <output_path>` -/
  | savedTo : Msg
  /-- Report `✓ JSON structure appears valid` -/
  | plausibleValid : Msg
  /-- Report `⚠ Data doesn't start with [ or \x7b - might not be JSON` -/
  | mightNotBeJson : Msg
  /-- Report `⚠ JSON validation failed - may need cleaning` -/
  | validationFailed : Msg
  /-- Report `✗ File only has N rows, cannot extract row M` (N = records present) -/
  | tooFewRows (present : Nat) : Msg
  /-- Report `✗ Error extracting row: <e>` — the `except Exception` handler.  With
  zero parsed records the loop variable `current_row_num` of line 85 is
  unbound and the `NameError` lands here. -/
  | errorException : Msg
deriving DecidableEq

/-- Result of a single-row extraction: the returned boolean, the content
written to the output path (if any), and the console messages. -/
structure SingleOutcome where
  success : Bool
  written : Option String
  messages : List Msg
deriving DecidableEq

/-- The body of the target-row branch of `extract_single_row` (main.py lines
47-83): reject an empty row, reject an empty longest field, otherwise write
the longest field verbatim, run the quick validation, and succeed. -/
def processRow (rowNumber : Nat) (row : List String) : SingleOutcome :=
  if row = [] then ⟨false, none, [Msg.emptyRow rowNumber]⟩
  else
    let jc := max_by_len row
    if jc = "" then ⟨false, none, [Msg.noData rowNumber]⟩
    else
      let pmsg :=
        match plausibility jc with
        | .looksValid => Msg.plausibleValid
        | .validationFailed => Msg.validationFailed
        | .notJsonStart => Msg.mightNotBeJson
      ⟨true, some jc, [Msg.foundData jc.length, Msg.savedTo, pmsg]⟩

/-- The `for current_row_num, row in enumerate(reader, 1)` loop of
`extract_single_row` (main.py lines 46-86).  `current` is the number of
records already consumed, so `current + 1` is Python's `current_row_num`. -/
def singleGo (rowNumber : Nat) : List (List String) → Nat → SingleOutcome
  | [], current =>
    if current = 0 then
      -- Python: `current_row_num` was never bound; the trailing print raises
      -- `NameError`, caught by the `except` which reports the exception.
      ⟨false, none, [Msg.errorException]⟩
    else
      ⟨false, none, [Msg.tooFewRows current]⟩
  | row :: rest, current =>
    if current + 1 = rowNumber then processRow rowNumber row
    else singleGo rowNumber rest (current + 1)

/-- Model of `extract_single_row(file_path, output_path, row_number)` over the parsed
records of the file. -/
def extract_single_row (rows : List (List String)) (rowNumber : Nat) : SingleOutcome :=
  singleGo rowNumber rows 0

/-- Result of an all-rows extraction: the returned boolean, the files on disk
after the run as `(row number, content)` pairs (named
`<stem>_row_<NNN>.json` on disk), the per-row advisory verdicts, and the two
counters. -/
structure AllOutcome where
  success : Bool
  files : List (Nat × String)
  verdicts : List (Nat × Plaus)
  extracted : Nat
  skipped : Nat
deriving DecidableEq

/-- Is this row skipped by `extract_all_rows`?  Lines 113 and 120: the row
has no fields, or its longest field is the empty string or strips to fewer
than 2 characters. -/
def skippable (row : List String) : Bool :=
  row = [] ∨ max_by_len row = "" ∨ (pyStrip (max_by_len row)).length < 2

/-- The body of `extract_all_rows` (main.py lines 110-157).  `fault` models
the `try`/`except` of lines 98-161: `some k` means a file-level exception
(e.g. a `csv.Error` raised by the reader, or an I/O error opening a row's
output file) interrupts the run when `k` records have been fully processed;
the handler prints the error and returns `False`, leaving the files already
written on disk.  `none` is a run with no exception. -/
def allRowsGo : List (List String) → Option Nat → Nat → Nat → List (Nat × String) →
    List (Nat × Plaus) → Nat → AllOutcome
  | rows, fault, extracted, skipped, files, verdicts, current =>
    match fault, rows with
    | some 0, _ => ⟨false, files, verdicts, extracted, skipped⟩
    | _, [] => ⟨extracted > 0, files, verdicts, extracted, skipped⟩
    | fault, row :: rest =>
      let fault' := fault.map (· - 1)
      let n := current + 1
      if skippable row then
        allRowsGo rest fault' extracted (skipped + 1) files verdicts n
      else
        let jc := max_by_len row
        allRowsGo rest fault' (extracted + 1) skipped (files ++ [(n, jc)])
          (verdicts ++ [(n, plausibility jc)]) n

/-- Model of `extract_all_rows(file_path, output_prefix)` over the parsed records,
with an optional injected file-level exception point. -/
def extract_all_rows (rows : List (List String)) (fault : Option Nat) : AllOutcome :=
  allRowsGo rows fault 0 0 [] [] 0

/-! ## The validator (`validate_json_file`) -/

/-- Console messages of `validate_json_file`. -/
inductive VMsg where
  /-- Report `✗ File is empty` -/
  | emptyFile : VMsg
  /-- Report `⚠ Doesn't start with [ or \x7b (starts with 'c')` -/
  | wrongStart (c : Char) : VMsg
  /-- Report `⚠ Doesn't end with ] or \x7d (ends with 'c')` -/
  | wrongEnd (c : Char) : VMsg
  /-- Report `✓ Valid JSON!` -/
  | validJson : VMsg
  /-- Report `✗ JSON parse error: <e>` -/
  | parseError : VMsg
  /-- Report `Unmatched braces: <n:+d>` -/
  | unmatchedBraces (n : Int) : VMsg
  /-- Report `Unmatched brackets: <n:+d>` -/
  | unmatchedBrackets (n : Int) : VMsg
deriving DecidableEq

/-- Value of `content.count('\x7b') - content.count('\x7d')` as a signed count. -/
def braceBalance (content : String) : Int :=
  (content.data.count '\x7b' : Int) - (content.data.count '\x7d' : Int)

/-- Value of `content.count('[') - content.count(']')` as a signed count. -/
def bracketBalance (content : String) : Int :=
  (content.data.count '[' : Int) - (content.data.count ']' : Int)

/-- Model of `validate_json_file(json_file)` (main.py lines 164-201) over the file's
content (the read succeeded; the `unreadable` branch is outside the modelled
claims).  Returns the boolean result plus the console messages in order. -/
def validate_json_file (content : String) : Bool × List VMsg :=
  match pyStrip content with
  | [] => (false, [VMsg.emptyFile])
  | first :: restT =>
    let last := (first :: restT).getLastD first
    if first = '[' ∨ first = '\x7b' then
      let warn : List VMsg :=
        if last = ']' ∨ last = '\x7d' then [] else [VMsg.wrongEnd last]
      match jsonLoads content with
      | some _ => (true, warn ++ [VMsg.validJson])
      | none =>
        let ob := braceBalance content
        let obk := bracketBalance content
        (false, warn ++ [VMsg.parseError]
          ++ (if ob ≠ 0 then [VMsg.unmatchedBraces ob] else [])
          ++ (if obk ≠ 0 then [VMsg.unmatchedBrackets obk] else []))
    else (false, [VMsg.wrongStart first])

/-- Characters that legitimately follow a value inside an array or object:
JSON whitespace, the separator, or a closing bracket/brace. -/
def isTermChar (c : Char) : Bool :=
  isJsonWs c ∨ c = ',' ∨ c = '\x7d' ∨ c = ']'

/-- The rest left by an inner parse starts with a terminator character. -/
def TermRest : List Char → Prop
  | [] => False
  | c :: _ => isTermChar c = true

/-- The portion of the output files contributed by the records of `rows`
numbered from `cur + 1` on. -/
def filesOf (rows : List (List String)) (cur : Nat) : List (Nat × String) :=
  (List.enumFrom (cur + 1) rows).filterMap
    (fun p => if skippable p.2 then none else some (p.1, max_by_len p.2))

/-- The corresponding advisory verdicts. -/
def verdictsOf (rows : List (List String)) (cur : Nat) : List (Nat × Plaus) :=
  (List.enumFrom (cur + 1) rows).filterMap
    (fun p => if skippable p.2 then none else some (p.1, plausibility (max_by_len p.2)))

/-- Stepping the all-rows loop over a skipped record. -/
theorem allRowsGo_cons_skip (row : List String) (rest : List (List String))
    (fault : Option Nat) (e s cur : Nat) (files : List (Nat × String))
    (verdicts : List (Nat × Plaus)) (hf : fault ≠ some 0) (hskip : skippable row = true) :
    allRowsGo (row :: rest) fault e s files verdicts cur
      = allRowsGo rest (fault.map (· - 1)) e (s + 1) files verdicts (cur + 1) := by
  rcases fault with _ | k
  · rw [allRowsGo]
    all_goals simp [hskip]
  · match k with
    | 0 => exact absurd rfl hf
    | k + 1 =>
      rw [allRowsGo]
      all_goals simp [hskip]

/-- Stepping the all-rows loop over an extracted record. -/
theorem allRowsGo_cons_extract (row : List String) (rest : List (List String))
    (fault : Option Nat) (e s cur : Nat) (files : List (Nat × String))
    (verdicts : List (Nat × Plaus)) (hf : fault ≠ some 0) (hskip : skippable row = false) :
    allRowsGo (row :: rest) fault e s files verdicts cur
      = allRowsGo rest (fault.map (· - 1)) (e + 1) s
          (files ++ [(cur + 1, max_by_len row)])
          (verdicts ++ [(cur + 1, plausibility (max_by_len row))]) (cur + 1) := by
  rcases fault with _ | k
  · rw [allRowsGo]
    all_goals simp [hskip]
  · match k with
    | 0 => exact absurd rfl hf
    | k + 1 =>
      rw [allRowsGo]
      all_goals simp [hskip]

/-! ## Lemmas about the field selection `max(row, key=len)` -/

/-- Invariant of Python's `max` fold: either the accumulator survives and
bounds every scanned element, or the result is the first element of maximal
length among those strictly longer than the accumulator. -/
theorem foldl_max_spec (xs : List String) : ∀ b : String,
    (xs.foldl (fun best f => if best.length < f.length then f else best) b = b
      ∧ ∀ f ∈ xs, f.length ≤ b.length)
    ∨ (∃ i, ∃ hi : i < xs.length,
        xs.foldl (fun best f => if best.length < f.length then f else best) b = xs.get ⟨i, hi⟩
        ∧ b.length < (xs.get ⟨i, hi⟩).length
        ∧ (∀ j, ∀ hj : j < xs.length, j < i →
            (xs.get ⟨j, hj⟩).length < (xs.get ⟨i, hi⟩).length)
        ∧ ∀ f ∈ xs, f.length ≤ (xs.get ⟨i, hi⟩).length) := by
  induction xs with
  | nil => intro b; exact Or.inl ⟨rfl, by simp⟩
  | cons y ys ih =>
    intro b
    by_cases hby : b.length < y.length
    · rcases ih y with ⟨heq, hle⟩ | ⟨i, hi, heq, hlt, hfirst, hall⟩
      · refine Or.inr ⟨0, by simp, ?_, ?_, ?_, ?_⟩
        · simpa [List.foldl_cons, if_pos hby] using heq
        · simpa using hby
        · intro j hj hj0; omega
        · intro f hf
          rcases List.mem_cons.mp hf with rfl | hf'
          · simp
          · simpa using hle f hf'
      · refine Or.inr ⟨i + 1, by simpa using Nat.succ_lt_succ hi, ?_, ?_, ?_, ?_⟩
        · simpa [List.foldl_cons, if_pos hby] using heq
        · have : b.length < y.length := hby
          simp only [List.get_cons_succ]
          omega
        · intro j hj hji
          match j, hj with
          | 0, _ => simpa using hlt
          | j' + 1, hj =>
            have hj' : j' < ys.length := by simpa using hj
            have := hfirst j' hj' (by omega)
            simpa using this
        · intro f hf
          rcases List.mem_cons.mp hf with rfl | hf'
          · simp only [List.get_cons_succ]
            omega
          · simpa using hall f hf'
    · rcases ih b with ⟨heq, hle⟩ | ⟨i, hi, heq, hlt, hfirst, hall⟩
      · refine Or.inl ⟨by simpa [List.foldl_cons, if_neg hby] using heq, ?_⟩
        intro f hf
        rcases List.mem_cons.mp hf with rfl | hf'
        · omega
        · exact hle f hf'
      · refine Or.inr ⟨i + 1, by simpa using Nat.succ_lt_succ hi, ?_, ?_, ?_, ?_⟩
        · simpa [List.foldl_cons, if_neg hby] using heq
        · simp only [List.get_cons_succ]
          omega
        · intro j hj hji
          match j, hj with
          | 0, _ =>
            simpa using lt_of_le_of_lt (Nat.le_of_not_lt hby) hlt
          | j' + 1, hj =>
            have hj' : j' < ys.length := by simpa using hj
            have := hfirst j' hj' (by omega)
            simpa using this
        · intro f hf
          rcases List.mem_cons.mp hf with rfl | hf'
          · simp only [List.get_cons_succ]
            omega
          · simpa using hall f hf'

/-- Selection lemma: `max(row, key=len)` picks the first field of maximal length: it is in the
row, no field is longer, and every strictly earlier field is strictly
shorter. -/
theorem max_by_len_spec (row : List String) (h : row ≠ []) :
    ∃ i, ∃ hi : i < row.length,
      max_by_len row = row.get ⟨i, hi⟩
      ∧ (∀ f ∈ row, f.length ≤ (row.get ⟨i, hi⟩).length)
      ∧ ∀ j, ∀ hj : j < row.length, j < i →
          (row.get ⟨j, hj⟩).length < (row.get ⟨i, hi⟩).length := by
  match row, h with
  | x :: xs, _ =>
    rcases foldl_max_spec xs x with ⟨heq, hle⟩ | ⟨i, hi, heq, hlt, hfirst, hall⟩
    · refine ⟨0, by simp, ?_, ?_, ?_⟩
      · simpa [max_by_len] using heq
      · intro f hf
        rcases List.mem_cons.mp hf with rfl | hf'
        · simp
        · simpa using hle f hf'
      · intro j hj hj0; omega
    · refine ⟨i + 1, by simpa using Nat.succ_lt_succ hi, ?_, ?_, ?_⟩
      · simpa [max_by_len] using heq
      · intro f hf
        rcases List.mem_cons.mp hf with rfl | hf'
        · simp only [List.get_cons_succ]
          omega
        · simpa using hall f hf'
      · intro j hj hji
        match j, hj with
        | 0, _ => simpa using hlt
        | j' + 1, hj =>
          have hj' : j' < xs.length := by simpa using hj
          have := hfirst j' hj' (by omega)
          simpa using this

/-- The selected field is a member of the row. -/
theorem max_by_len_mem (row : List String) (h : row ≠ []) : max_by_len row ∈ row := by
  rcases max_by_len_spec row h with ⟨i, hi, heq, -, -⟩
  rw [heq]
  exact List.get_mem row _ _

/-! ## Lemmas about the single-row extraction loop -/

/-- When the target row exists, the loop reaches it and runs the target-row
body on it. -/
theorem singleGo_found (rows : List (List String)) : ∀ (cur rn : Nat),
    cur < rn → ∀ hlt : rn - cur - 1 < rows.length,
    singleGo rn rows cur = processRow rn (rows.get ⟨rn - cur - 1, hlt⟩) := by
  induction rows with
  | nil => intro cur rn _ hlt; simp at hlt
  | cons row rest ih =>
    intro cur rn hcur hlt
    by_cases heq : cur + 1 = rn
    · have h0 : rn - cur - 1 = 0 := by omega
      simp [singleGo, heq, h0]
    · have hcur' : cur + 1 < rn := by omega
      obtain ⟨k, hk⟩ : ∃ k, rn - cur - 1 = k + 1 := ⟨rn - cur - 2, by omega⟩
      have hk' : k < rest.length := by
        have h2 := hlt; rw [hk] at h2; simpa using h2
      have harg : rn - (cur + 1) - 1 < rest.length := by omega
      have hgoal := ih (cur + 1) rn hcur' harg
      rw [singleGo, if_neg heq, hgoal]
      congr 1
      have hidx : rn - (cur + 1) - 1 = k := by omega
      simp only [hk, hidx, List.get_cons_succ]

/-- When the file runs out of records before the target row (or the target
row number is not above the starting count), the loop falls through and, with
at least one record consumed in total, reports the total record count. -/
theorem singleGo_tooFew (rows : List (List String)) : ∀ (cur rn : Nat),
    (rn ≤ cur ∨ cur + rows.length < rn) → cur + rows.length ≠ 0 →
    singleGo rn rows cur = ⟨false, none, [Msg.tooFewRows (cur + rows.length)]⟩ := by
  induction rows with
  | nil =>
    intro cur rn _ hne
    have : cur ≠ 0 := by simpa using hne
    simp [singleGo, this]
  | cons row rest ih =>
    intro cur rn hmiss hne
    simp only [List.length_cons] at hmiss hne ⊢
    have hneq : cur + 1 ≠ rn := by omega
    have hmiss' : rn ≤ cur + 1 ∨ cur + 1 + rest.length < rn := by omega
    have hstep := ih (cur + 1) rn hmiss' (by omega)
    rw [singleGo, if_neg hneq, hstep]
    have harith : cur + 1 + rest.length = cur + (rest.length + 1) := by omega
    rw [harith]

/-- Running `extract_single_row` on a file whose records include the 1-based target
row runs the target-row body on exactly that record. -/
theorem extract_single_row_found (rows : List (List String)) (rn : Nat)
    (h1 : 1 ≤ rn) (hlt : rn - 1 < rows.length) :
    extract_single_row rows rn = processRow rn (rows.get ⟨rn - 1, hlt⟩) := by
  have := singleGo_found rows 0 rn (by omega) (by simpa using hlt)
  simpa [extract_single_row] using this

/-- Running `extract_single_row` on a nonempty file with fewer records than the
target row number fails and reports the record count. -/
theorem extract_single_row_tooFew (rows : List (List String)) (rn : Nat)
    (hne : rows ≠ []) (hlt : rows.length < rn) :
    extract_single_row rows rn = ⟨false, none, [Msg.tooFewRows rows.length]⟩ := by
  have hlen : 0 + rows.length ≠ 0 := by
    simpa using List.length_pos.mpr hne |>.ne'
  have := singleGo_tooFew rows 0 rn (Or.inr (by omega)) hlen
  simpa [extract_single_row] using this

/-! ## Lemmas about the all-rows extraction loop -/

/-- Full characterization of a fault-free all-rows run: each record is
extracted or skipped, files and verdicts accumulate in order, and the
returned boolean is `extracted > 0`. -/
theorem allRowsGo_none (rows : List (List String)) :
    ∀ (e s cur : Nat) (files : List (Nat × String)) (verdicts : List (Nat × Plaus)),
    allRowsGo rows none e s files verdicts cur =
      ⟨decide (0 < e + rows.countP (fun r => !skippable r)),
       files ++ filesOf rows cur,
       verdicts ++ verdictsOf rows cur,
       e + rows.countP (fun r => !skippable r),
       s + rows.countP (fun r => skippable r)⟩ := by
  induction rows with
  | nil =>
    intro e s cur files verdicts
    simp [allRowsGo, filesOf, verdictsOf, Nat.lt_iff_add_one_le]
  | cons row rest ih =>
    intro e s cur files verdicts
    have hmap : Option.map (fun x : Nat => x - 1) none = none := rfl
    by_cases hskip : skippable row
    · rw [allRowsGo_cons_skip row rest none e s cur files verdicts (by simp) hskip,
        hmap, ih]
      have hcount : (row :: rest).countP (fun r => !skippable r)
          = rest.countP (fun r => !skippable r) := by
        simp [List.countP_cons, hskip]
      have hcount2 : (row :: rest).countP (fun r => skippable r)
          = rest.countP (fun r => skippable r) + 1 := by
        simp [List.countP_cons, hskip]
      have hfiles : filesOf (row :: rest) cur = filesOf rest (cur + 1) := by
        simp [filesOf, List.enumFrom, hskip]
      have hverd : verdictsOf (row :: rest) cur = verdictsOf rest (cur + 1) := by
        simp [verdictsOf, List.enumFrom, hskip]
      rw [hcount, hcount2, hfiles, hverd]
      have harith : s + (rest.countP (fun r => skippable r) + 1)
          = s + 1 + rest.countP (fun r => skippable r) := by omega
      rw [harith]
    · have hskip' : skippable row = false := by simpa using hskip
      rw [allRowsGo_cons_extract row rest none e s cur files verdicts (by simp) hskip',
        hmap, ih]
      have hcount : (row :: rest).countP (fun r => !skippable r)
          = rest.countP (fun r => !skippable r) + 1 := by
        simp [List.countP_cons, hskip]
      have hcount2 : (row :: rest).countP (fun r => skippable r)
          = rest.countP (fun r => skippable r) := by
        simp [List.countP_cons, hskip]
      have hfiles : filesOf (row :: rest) cur
          = (cur + 1, max_by_len row) :: filesOf rest (cur + 1) := by
        simp [filesOf, List.enumFrom, hskip]
      have hverd : verdictsOf (row :: rest) cur
          = (cur + 1, plausibility (max_by_len row)) :: verdictsOf rest (cur + 1) := by
        simp [verdictsOf, List.enumFrom, hskip]
      rw [hcount, hcount2, hfiles, hverd]
      have harith : e + (rest.countP (fun r => !skippable r) + 1)
          = e + 1 + rest.countP (fun r => !skippable r) := by omega
      rw [harith]
      have hfiles2 : files ++ ((cur + 1, max_by_len row) :: filesOf rest (cur + 1))
          = (files ++ [(cur + 1, max_by_len row)]) ++ filesOf rest (cur + 1) := by
        simp
      have hverd2 : verdicts ++ ((cur + 1, plausibility (max_by_len row)) :: verdictsOf rest (cur + 1))
          = (verdicts ++ [(cur + 1, plausibility (max_by_len row))]) ++ verdictsOf rest (cur + 1) := by
        simp
      rw [hfiles2, hverd2]

/-- A file-level exception that actually fires (it interrupts at or before
the end of the record stream) makes the all-rows run return failure. -/
theorem allRowsGo_fault (rows : List (List String)) :
    ∀ (k e s cur : Nat) (files : List (Nat × String)) (verdicts : List (Nat × Plaus)),
    k ≤ rows.length →
    (allRowsGo rows (some k) e s files verdicts cur).success = false := by
  induction rows with
  | nil =>
    intro k e s cur files verdicts hk
    have hz : k = 0 := by simpa using hk
    subst hz
    rfl
  | cons row rest ih =>
    intro k e s cur files verdicts hk
    match k with
    | 0 => rfl
    | k' + 1 =>
      have hk' : k' ≤ rest.length := by simpa using hk
      by_cases hskip : skippable row
      · rw [allRowsGo_cons_skip row rest (some (k' + 1)) e s cur files verdicts
          (by simp) hskip]
        simpa using ih k' e (s + 1) (cur + 1) files verdicts hk'
      · rw [allRowsGo_cons_extract row rest (some (k' + 1)) e s cur files verdicts
          (by simp) (by simpa using hskip)]
        simpa using
          ih k' (e + 1) s (cur + 1) (files ++ [(cur + 1, max_by_len row)])
            (verdicts ++ [(cur + 1, plausibility (max_by_len row))]) hk'

/-- Every file produced by the all-rows loop comes from a non-skippable
record, carries that record's 1-based number, and contains that record's
longest field. -/
theorem mem_filesOf (rows : List (List String)) : ∀ (cur n : Nat) (c : String),
    (n, c) ∈ filesOf rows cur →
    ∃ j, ∃ hj : j < rows.length, n = cur + 1 + j
      ∧ skippable (rows.get ⟨j, hj⟩) = false
      ∧ c = max_by_len (rows.get ⟨j, hj⟩) := by
  induction rows with
  | nil => intro cur n c h; simp [filesOf, List.enumFrom] at h
  | cons row rest ih =>
    intro cur n c h
    by_cases hskip : skippable row
    · have hfiles : filesOf (row :: rest) cur = filesOf rest (cur + 1) := by
        simp [filesOf, List.enumFrom, hskip]
      rw [hfiles] at h
      obtain ⟨j, hj, hn, hsk, hc⟩ := ih (cur + 1) n c h
      exact ⟨j + 1, by simpa using Nat.succ_lt_succ hj,
        by omega, by simpa using hsk, by simpa using hc⟩
    · have hfiles : filesOf (row :: rest) cur
          = (cur + 1, max_by_len row) :: filesOf rest (cur + 1) := by
        simp [filesOf, List.enumFrom, hskip]
      rw [hfiles] at h
      rcases List.mem_cons.mp h with heq | hmem
      · obtain ⟨hn, hc⟩ := Prod.mk.injEq .. ▸ heq
        refine ⟨0, by simp, by omega, ?_, ?_⟩
        · simpa using hskip
        · simpa using hc
      · obtain ⟨j, hj, hn, hsk, hc⟩ := ih (cur + 1) n c hmem
        exact ⟨j + 1, by simpa using Nat.succ_lt_succ hj,
          by omega, by simpa using hsk, by simpa using hc⟩

/-! ## Whitespace and strip lemmas -/

/-- Left strip removes a prefix: the original list is that prefix followed by
the stripped remainder. -/
theorem pyStripL_eq_append (l : List Char) : ∃ d, l = d ++ pyStripL l := by
  induction l with
  | nil => exact ⟨[], rfl⟩
  | cons c cs ih =>
    by_cases h : isPyWs c
    · obtain ⟨d, hd⟩ := ih
      exact ⟨c :: d, by simp [pyStripL, h]; exact hd⟩
    · exact ⟨[], by simp [pyStripL, h]⟩

/-- Right strip keeps a prefix of the original list. -/
theorem pyStripR_eq_append (l : List Char) : ∃ u, l = pyStripR l ++ u := by
  obtain ⟨d, hd⟩ := pyStripL_eq_append l.reverse
  refine ⟨d.reverse, ?_⟩
  have := congrArg List.reverse hd
  simpa [pyStripR] using this

/-- The head of the fully stripped string is the head of the left-stripped
string. -/
theorem pyStrip_head (s : String) (x : Char) (t : List Char)
    (h : pyStrip s = x :: t) : ∃ u, pyStripL s.data = x :: (t ++ u) := by
  obtain ⟨u, hu⟩ := pyStripR_eq_append (pyStripL s.data)
  rw [pyStrip] at h
  rw [h] at hu
  exact ⟨u, by simpa using hu⟩

/-- JSON whitespace is Python whitespace. -/
theorem isPyWs_of_isJsonWs (c : Char) (h : isJsonWs c = true) : isPyWs c = true := by
  simp [isJsonWs] at h
  simp [isPyWs]
  tauto

/-- JSON whitespace skipping agrees with `pyStripL` unless it stops on a vertical tab or form
feed (the two Python-whitespace characters that are not JSON whitespace). -/
theorem skipWs_eq_pyStripL_or (cs : List Char) :
    skipWs cs = pyStripL cs
    ∨ ∃ t, skipWs cs = '\x0b' :: t ∨ skipWs cs = '\x0c' :: t := by
  induction cs with
  | nil => exact Or.inl rfl
  | cons c cs' ih =>
    by_cases hj : isJsonWs c
    · have hp : isPyWs c = true := isPyWs_of_isJsonWs c hj
      rw [skipWs, if_pos hj, pyStripL, if_pos hp] at *
      exact ih
    · by_cases hp : isPyWs c
      · have hc : c = '\x0b' ∨ c = '\x0c' := by
          simp [isPyWs] at hp
          simp [isJsonWs] at hj
          tauto
        rw [skipWs, if_neg hj]
        rcases hc with rfl | rfl
        · exact Or.inr ⟨cs', Or.inl rfl⟩
        · exact Or.inr ⟨cs', Or.inr rfl⟩
      · rw [skipWs, if_neg hj, pyStripL, if_neg hp]
        exact Or.inl rfl

/-! ## Scanner stability under input extension

The key metatheory for the plausibility probe: a scanner that stopped on a
character found *inside* the input makes the same decisions when more text is
appended after the input.  Only end-of-input decisions can change, and those
leave a recognizable rest (`.`, `e`, `E` at its head, or an empty rest). -/

theorem skipWs_append_cons (cs : List Char) : ∀ (d : Char) (t ext : List Char),
    skipWs cs = d :: t → skipWs (cs ++ ext) = d :: (t ++ ext) := by
  induction cs with
  | nil => intro d t ext h; simp [skipWs] at h
  | cons c cs' ih =>
    intro d t ext h
    by_cases hws : isJsonWs c
    · rw [skipWs, if_pos hws] at h
      rw [List.cons_append, skipWs, if_pos hws]
      exact ih d t ext h
    · rw [skipWs, if_neg hws] at h
      rw [List.cons_append, skipWs, if_neg hws]
      obtain ⟨rfl, rfl⟩ := List.cons.injEq .. ▸ h
      simp

theorem skipWs_append_nil (cs : List Char) : ∀ (ext : List Char),
    skipWs cs = [] → skipWs (cs ++ ext) = skipWs ext := by
  induction cs with
  | nil => intro ext _; rfl
  | cons c cs' ih =>
    intro ext h
    by_cases hws : isJsonWs c
    · rw [skipWs, if_pos hws] at h
      rw [List.cons_append, skipWs, if_pos hws]
      exact ih ext h
    · rw [skipWs, if_neg hws] at h
      exact absurd h (by simp)

theorem scanDigits_append (cs : List Char) : ∀ (ds : List Char) (d : Char) (t ext : List Char),
    scanDigits cs = (ds, d :: t) → scanDigits (cs ++ ext) = (ds, d :: (t ++ ext)) := by
  induction cs with
  | nil => intro ds d t ext h; simp [scanDigits] at h
  | cons c cs' ih =>
    intro ds d t ext h
    by_cases hd : c.isDigit
    · rw [scanDigits] at h
      simp only [hd, if_true] at h
      obtain ⟨h1, h2⟩ := Prod.mk.injEq .. ▸ h
      rw [List.cons_append, scanDigits]
      simp only [hd, if_true]
      rw [ih (scanDigits cs').1 d t ext (by rw [← h2])]
      simp [← h1]
    · rw [scanDigits] at h
      simp only [hd, if_false] at h
      obtain ⟨h1, h2⟩ := Prod.mk.injEq .. ▸ h
      rw [List.cons_append, scanDigits]
      simp only [hd, if_false]
      obtain ⟨rfl, rfl⟩ := List.cons.injEq .. ▸ h2
      simp [← h1]

theorem scanIntPart_append (cs : List Char) : ∀ (ip : List Char) (d : Char) (t ext : List Char),
    scanIntPart cs = some (ip, d :: t) → scanIntPart (cs ++ ext) = some (ip, d :: (t ++ ext)) := by
  match cs with
  | [] => intro ip d t ext h; simp [scanIntPart] at h
  | c :: cs' =>
    intro ip d t ext h
    by_cases h0 : c = '0'
    · rw [scanIntPart] at h
      simp only [h0, if_true] at h
      obtain ⟨h1, h2⟩ := Prod.mk.injEq .. ▸ (Option.some.injEq .. ▸ h)
      subst h0
      rw [List.cons_append, scanIntPart]
      simp only [if_true]
      rw [h2, ← h1]
      simp
    · by_cases hd : c.isDigit
      · rw [scanIntPart] at h
        simp only [h0, hd, if_false, if_true] at h
        obtain ⟨h1, h2⟩ := Prod.mk.injEq .. ▸ (Option.some.injEq .. ▸ h)
        rw [List.cons_append, scanIntPart]
        simp only [h0, hd, if_false, if_true]
        rw [scanDigits_append cs' (scanDigits cs').1 d t ext (by rw [← h2])]
        simp [← h1]
      · rw [scanIntPart] at h
        simp [h0, hd] at h

theorem scanFrac_append (cs : List Char) (fr : List Char) (d : Char) (t ext : List Char)
    (h : scanFrac cs = (fr, d :: t)) (hd : d ≠ '.') :
    scanFrac (cs ++ ext) = (fr, d :: (t ++ ext)) := by
  match cs with
  | [] => simp [scanFrac] at h
  | c :: cs2 =>
    by_cases hc : c = '.'
    · subst hc
      rw [scanFrac, if_pos rfl] at h
      match hsd : scanDigits cs2 with
      | ([], r) =>
        rw [hsd] at h
        obtain ⟨h1, h2⟩ := Prod.mk.injEq .. ▸ h
        obtain ⟨rfl, rfl⟩ := List.cons.injEq .. ▸ h2
        exact absurd rfl hd
      | (d0 :: ds, r) =>
        rw [hsd] at h
        obtain ⟨h1, h2⟩ := Prod.mk.injEq .. ▸ h
        subst h2
        have hr : scanDigits (cs2 ++ ext) = (d0 :: ds, d :: (t ++ ext)) :=
          scanDigits_append cs2 (d0 :: ds) d t ext hsd
        rw [List.cons_append, scanFrac, if_pos rfl, hr]
        simp [← h1]
    · rw [scanFrac, if_neg hc] at h
      obtain ⟨h1, h2⟩ := Prod.mk.injEq .. ▸ h
      obtain ⟨rfl, rfl⟩ := List.cons.injEq .. ▸ h2
      rw [List.cons_append, scanFrac, if_neg hc, ← h1]

/-- When the exponent scan consumes nothing, it returns its input intact. -/
theorem scanExpTail_eq_input (e : Char) (cs : List Char) : ∀ r,
    scanExpTail e cs = ([], r) → r = e :: cs := by
  match cs with
  | [] =>
    intro r h
    simpa [scanExpTail] using (Prod.mk.injEq .. ▸ h).2.symm
  | s :: cs' =>
    intro r h
    by_cases hs : s = '+' ∨ s = '-'
    · rw [scanExpTail, if_pos hs] at h
      match hsd : scanDigits cs' with
      | ([], r0) =>
        rw [hsd] at h
        exact (Prod.mk.injEq .. ▸ h).2.symm
      | (d0 :: ds, r0) =>
        rw [hsd] at h
        exact absurd (Prod.mk.injEq .. ▸ h).1.symm (by simp)
    · rw [scanExpTail, if_neg hs] at h
      match hsd : scanDigits (s :: cs') with
      | ([], r0) =>
        rw [hsd] at h
        exact (Prod.mk.injEq .. ▸ h).2.symm
      | (d0 :: ds, r0) =>
        rw [hsd] at h
        exact absurd (Prod.mk.injEq .. ▸ h).1.symm (by simp)

/-- When the exponent scan consumes nothing, it returns its input intact. -/
theorem scanExp_eq_input (cs : List Char) : ∀ r, scanExp cs = ([], r) → r = cs := by
  match cs with
  | [] => intro r h; simpa [scanExp] using (Prod.mk.injEq .. ▸ h).2.symm
  | e :: cs2 =>
    intro r h
    by_cases he : e = 'e' ∨ e = 'E'
    · rw [scanExp, if_pos he] at h
      exact scanExpTail_eq_input e cs2 r h
    · rw [scanExp, if_neg he] at h
      exact (Prod.mk.injEq .. ▸ h).2.symm

/-- When the exponent scan consumes something, the input began with `e` or
`E`. -/
theorem scanExp_consumed (cs : List Char) : ∀ (x : Char) (xs r : List Char),
    scanExp cs = (x :: xs, r) → ∃ e cs2, cs = e :: cs2 ∧ (e = 'e' ∨ e = 'E') := by
  match cs with
  | [] => intro x xs r h; simp [scanExp] at h
  | e :: cs2 =>
    intro x xs r h
    by_cases he : e = 'e' ∨ e = 'E'
    · exact ⟨e, cs2, rfl, he⟩
    · rw [scanExp, if_neg he] at h
      exact absurd (Prod.mk.injEq .. ▸ h).1.symm (by simp)

theorem scanExpTail_append (e : Char) (cs : List Char) (ex : List Char) (d : Char)
    (t ext : List Char) (h : scanExpTail e cs = (ex, d :: t))
    (hde : d ≠ 'e') (hdE : d ≠ 'E') (he : e = 'e' ∨ e = 'E') :
    scanExpTail e (cs ++ ext) = (ex, d :: (t ++ ext)) := by
  match cs with
  | [] =>
    rw [scanExpTail] at h
    obtain ⟨-, h2⟩ := Prod.mk.injEq .. ▸ h
    obtain ⟨rfl, -⟩ := List.cons.injEq .. ▸ h2
    rcases he with rfl | rfl
    · exact absurd rfl hde
    · exact absurd rfl hdE
  | s :: cs3 =>
    by_cases hs : s = '+' ∨ s = '-'
    · rw [scanExpTail, if_pos hs] at h
      match hsd : scanDigits cs3 with
      | ([], r0) =>
        rw [hsd] at h
        obtain ⟨-, h2⟩ := Prod.mk.injEq .. ▸ h
        obtain ⟨rfl, -⟩ := List.cons.injEq .. ▸ h2
        rcases he with rfl | rfl
        · exact absurd rfl hde
        · exact absurd rfl hdE
      | (d0 :: ds, r0) =>
        rw [hsd] at h
        obtain ⟨h1, h2⟩ := Prod.mk.injEq .. ▸ h
        subst h2
        have hr := scanDigits_append cs3 (d0 :: ds) d t ext hsd
        show scanExpTail e (s :: (cs3 ++ ext)) = (ex, d :: (t ++ ext))
        rw [scanExpTail, if_pos hs, hr, ← h1]
    · rw [scanExpTail, if_neg hs] at h
      match hsd : scanDigits (s :: cs3) with
      | ([], r0) =>
        rw [hsd] at h
        obtain ⟨-, h2⟩ := Prod.mk.injEq .. ▸ h
        obtain ⟨rfl, -⟩ := List.cons.injEq .. ▸ h2
        rcases he with rfl | rfl
        · exact absurd rfl hde
        · exact absurd rfl hdE
      | (d0 :: ds, r0) =>
        rw [hsd] at h
        obtain ⟨h1, h2⟩ := Prod.mk.injEq .. ▸ h
        subst h2
        have hr := scanDigits_append (s :: cs3) (d0 :: ds) d t ext hsd
        rw [List.cons_append] at hr
        show scanExpTail e (s :: (cs3 ++ ext)) = (ex, d :: (t ++ ext))
        rw [scanExpTail, if_neg hs, hr, ← h1]

theorem scanExp_append (cs : List Char) (ex : List Char) (d : Char) (t ext : List Char)
    (h : scanExp cs = (ex, d :: t)) (hde : d ≠ 'e') (hdE : d ≠ 'E') :
    scanExp (cs ++ ext) = (ex, d :: (t ++ ext)) := by
  match cs with
  | [] => simp [scanExp] at h
  | e :: cs2 =>
    by_cases he : e = 'e' ∨ e = 'E'
    · rw [scanExp, if_pos he] at h
      rw [List.cons_append, scanExp, if_pos he]
      exact scanExpTail_append e cs2 ex d t ext h hde hdE he
    · rw [scanExp, if_neg he] at h
      obtain ⟨h1, h2⟩ := Prod.mk.injEq .. ▸ h
      obtain ⟨rfl, rfl⟩ := List.cons.injEq .. ▸ h2
      rw [List.cons_append, scanExp, if_neg he, ← h1]

theorem scanFracExp_append (cs fe : List Char) (d : Char) (t ext : List Char)
    (h : scanFracExp cs = (fe, d :: t)) (hd : d ≠ '.') (hde : d ≠ 'e') (hdE : d ≠ 'E') :
    scanFracExp (cs ++ ext) = (fe, d :: (t ++ ext)) := by
  have hdef : scanFracExp cs
      = ((scanFrac cs).1 ++ (scanExp (scanFrac cs).2).1, (scanExp (scanFrac cs).2).2) := rfl
  have hdef2 : scanFracExp (cs ++ ext)
      = ((scanFrac (cs ++ ext)).1 ++ (scanExp (scanFrac (cs ++ ext)).2).1,
         (scanExp (scanFrac (cs ++ ext)).2).2) := rfl
  rw [hdef] at h
  obtain ⟨h1, h2⟩ := Prod.mk.injEq .. ▸ h
  rcases hx : (scanExp (scanFrac cs).2).1 with _ | ⟨x, xs⟩
  · have hE : scanExp (scanFrac cs).2 = ([], d :: t) := by
      have hp : scanExp (scanFrac cs).2
          = ((scanExp (scanFrac cs).2).1, (scanExp (scanFrac cs).2).2) := rfl
      rw [hp, hx, h2]
    have hin : d :: t = (scanFrac cs).2 := scanExp_eq_input _ _ hE
    have hfr : scanFrac cs = ((scanFrac cs).1, d :: t) := by
      have hp : scanFrac cs = ((scanFrac cs).1, (scanFrac cs).2) := rfl
      rw [hp, ← hin]
    have hfr2 := scanFrac_append cs (scanFrac cs).1 d t ext hfr hd
    rw [hdef2, hfr2]
    have hexp : scanExp (d :: (t ++ ext)) = ([], d :: (t ++ ext)) := by
      rw [scanExp, if_neg (by tauto)]
    simp only [hexp]
    rw [hx] at h1
    simp only [Prod.mk.injEq]
    exact ⟨by simpa using h1, trivial⟩
  · have hE : scanExp (scanFrac cs).2 = (x :: xs, d :: t) := by
      have hp : scanExp (scanFrac cs).2
          = ((scanExp (scanFrac cs).2).1, (scanExp (scanFrac cs).2).2) := rfl
      rw [hp, hx, h2]
    obtain ⟨e0, cs2, hsh, he0⟩ := scanExp_consumed _ x xs _ hE
    have he0d : e0 ≠ '.' := by rcases he0 with rfl | rfl <;> decide
    have hfr : scanFrac cs = ((scanFrac cs).1, e0 :: cs2) := by
      have hp : scanFrac cs = ((scanFrac cs).1, (scanFrac cs).2) := rfl
      rw [hp, hsh]
    have hfr2 := scanFrac_append cs (scanFrac cs).1 e0 cs2 ext hfr he0d
    have hexp := scanExp_append ((scanFrac cs).2) (x :: xs) d t ext hE hde hdE
    rw [hsh] at hexp
    rw [List.cons_append] at hexp
    rw [hdef2, hfr2]
    simp only [hexp]
    rw [hx] at h1
    simp only [Prod.mk.injEq]
    exact ⟨h1, trivial⟩

theorem parseNumber_append (cs raw : List Char) (d : Char) (t ext : List Char)
    (h : parseNumber cs = some (raw, d :: t)) (hd : d ≠ '.') (hde : d ≠ 'e') (hdE : d ≠ 'E') :
    parseNumber (cs ++ ext) = some (raw, d :: (t ++ ext)) := by
  match cs with
  | [] => simp [parseNumber] at h
  | c :: cs' =>
    by_cases hneg : c = '-'
    · rw [parseNumber, if_pos hneg] at h
      match hip : scanIntPart cs' with
      | none => rw [hip] at h; exact absurd h (by simp)
      | some (ip, r1) =>
        rw [hip] at h
        simp only [Option.some.injEq, Prod.mk.injEq] at h
        obtain ⟨h1, h2⟩ := h
        match r1, hip, h1, h2 with
        | [], hip, h1, h2 =>
          rw [show scanFracExp [] = ([], []) from rfl] at h2
          exact absurd h2 (by simp)
        | y :: ys, hip, h1, h2 =>
          have hfe : scanFracExp (y :: ys) = ((scanFracExp (y :: ys)).1, d :: t) := by
            have hp : scanFracExp (y :: ys)
                = ((scanFracExp (y :: ys)).1, (scanFracExp (y :: ys)).2) := rfl
            rw [hp, h2]
          have hip2 := scanIntPart_append cs' ip y ys ext hip
          have hfe2 := scanFracExp_append (y :: ys) (scanFracExp (y :: ys)).1 d t ext hfe hd hde hdE
          rw [List.cons_append, parseNumber, if_pos hneg, hip2]
          rw [List.cons_append] at hfe2
          simp only [hfe2, Option.some.injEq, Prod.mk.injEq]
          exact ⟨by rw [← h1], trivial⟩
    · rw [parseNumber, if_neg hneg] at h
      match hip : scanIntPart (c :: cs') with
      | none => rw [hip] at h; exact absurd h (by simp)
      | some (ip, r1) =>
        rw [hip] at h
        simp only [Option.some.injEq, Prod.mk.injEq] at h
        obtain ⟨h1, h2⟩ := h
        match r1, hip, h1, h2 with
        | [], hip, h1, h2 =>
          rw [show scanFracExp [] = ([], []) from rfl] at h2
          exact absurd h2 (by simp)
        | y :: ys, hip, h1, h2 =>
          have hfe : scanFracExp (y :: ys) = ((scanFracExp (y :: ys)).1, d :: t) := by
            have hp : scanFracExp (y :: ys)
                = ((scanFracExp (y :: ys)).1, (scanFracExp (y :: ys)).2) := rfl
            rw [hp, h2]
          have hip2 := scanIntPart_append (c :: cs') ip y ys ext hip
          have hfe2 := scanFracExp_append (y :: ys) (scanFracExp (y :: ys)).1 d t ext hfe hd hde hdE
          rw [List.cons_append, parseNumber, if_neg hneg]
          rw [List.cons_append] at hip2
          rw [hip2]
          rw [List.cons_append] at hfe2
          simp only [hfe2, Option.some.injEq, Prod.mk.injEq]
          exact ⟨by rw [← h1], trivial⟩

theorem expectChars_append (pat : List Char) : ∀ (cs r ext : List Char),
    expectChars pat cs = some r → expectChars pat (cs ++ ext) = some (r ++ ext) := by
  induction pat with
  | nil =>
    intro cs r ext h
    rw [expectChars] at h
    obtain rfl := Option.some.injEq .. ▸ h
    rfl
  | cons p ps ih =>
    intro cs r ext h
    match cs with
    | [] => exact absurd h (by simp [expectChars])
    | c :: cs' =>
      by_cases hc : c = p
      · rw [expectChars, if_pos hc] at h
        rw [List.cons_append, expectChars, if_pos hc]
        exact ih cs' r ext h
      · rw [expectChars, if_neg hc] at h
        exact absurd h (by simp)

theorem parseStringBody_append (cs : List Char) : ∀ (b r ext : List Char),
    parseStringBody cs = some (b, r) → parseStringBody (cs ++ ext) = some (b, r ++ ext) := by
  induction cs using parseStringBody.induct with
  | case1 =>
    intro b r ext h
    rw [parseStringBody.eq_def] at h
    simp at h
  | case2 cs =>
    intro b r ext h
    rw [parseStringBody.eq_def] at h
    simp only [if_pos rfl, Option.some.injEq, Prod.mk.injEq] at h
    obtain ⟨rfl, rfl⟩ := h
    rw [List.cons_append, parseStringBody.eq_def]
    simp
  | case3 =>
    intro b r ext h
    rw [parseStringBody.eq_def] at h
    simp at h
  | case4 h1 h2 h3 h4 cs'' hhex body r0 hsb _ ih =>
    intro b r ext h
    rw [parseStringBody.eq_def] at h
    simp only [hhex, hsb, if_pos rfl, and_self, if_true, reduceIte,
      Option.some.injEq, Prod.mk.injEq] at h
    obtain ⟨rfl, rfl⟩ := h
    have hx := ih body r0 ext hsb
    rw [List.cons_append, parseStringBody.eq_def]
    simp [hhex, hx]
  | case5 h1 h2 h3 h4 cs'' hhex hsb =>
    intro b r ext h
    rw [parseStringBody.eq_def] at h
    simp [hhex, hsb] at h
  | case6 h1 h2 h3 h4 cs'' hhex =>
    intro b r ext h
    rw [parseStringBody.eq_def] at h
    simp [hhex] at h
  | case7 cs hshort =>
    intro b r ext h
    rw [parseStringBody.eq_def] at h
    rcases cs with _ | ⟨c1, cs⟩
    · simp at h
    · rcases cs with _ | ⟨c2, cs⟩
      · simp at h
      · rcases cs with _ | ⟨c3, cs⟩
        · simp at h
        · rcases cs with _ | ⟨c4, cs⟩
          · simp at h
          · exact (hshort c1 c2 c3 c4 cs rfl).elim
  | case8 e cs hne hesc body r0 hsb _ ih =>
    intro b r ext h
    rw [parseStringBody.eq_def] at h
    simp only [hne, hesc, hsb, if_pos rfl, if_neg hne, if_true, reduceIte,
      Option.some.injEq, Prod.mk.injEq] at h
    obtain ⟨rfl, rfl⟩ := h
    have hx := ih body r0 ext hsb
    rw [List.cons_append, List.cons_append, parseStringBody.eq_def]
    simp [hne, hesc, hx]
  | case9 e cs hne hesc hsb ih =>
    intro b r ext h
    rw [parseStringBody.eq_def] at h
    simp [hne, hesc, hsb] at h
  | case10 e cs hne hesc =>
    intro b r ext h
    rw [parseStringBody.eq_def] at h
    simp [hne, hesc] at h
  | case11 c cs hq hbk hctl =>
    intro b r ext h
    rw [parseStringBody.eq_def] at h
    simp [hq, hbk, hctl] at h
  | case12 c cs hq hbk hctl body r0 hsb ih =>
    intro b r ext h
    rw [parseStringBody.eq_def] at h
    simp only [hq, hbk, hctl, hsb, if_false, if_neg hq, if_neg hbk, reduceIte,
      Option.some.injEq, Prod.mk.injEq] at h
    obtain ⟨rfl, rfl⟩ := h
    have hx := ih body r0 ext hsb
    rw [List.cons_append, parseStringBody.eq_def]
    simp [hq, hbk, hctl, hx]
  | case13 c cs hq hbk hctl hsb ih =>
    intro b r ext h
    rw [parseStringBody.eq_def] at h
    simp [hq, hbk, hctl, hsb] at h

/-! ## Unfolding equations and fuel monotonicity for the mutual parser -/

theorem parseVal_nil : ∀ f, parseVal f [] = none := by
  intro f
  cases f with
  | zero => rfl
  | succ g => rfl

theorem parseMembers_nil : ∀ f, parseMembers f [] = none := by
  intro f
  cases f with
  | zero => rfl
  | succ g => rfl

theorem parseVal_succ (fuel : Nat) (c : Char) (cs : List Char) :
    parseVal (fuel + 1) (c :: cs) =
      (if c = '"' then
        match parseStringBody cs with
        | some (body, r) => some (.str body, r)
        | none => none
      else if c = '\x7b' then
        match skipWs cs with
        | [] => none
        | d :: r =>
          if d = '\x7d' then some (.obj [], r)
          else
            match parseMembers fuel (d :: r) with
            | some (ms, r2) => some (.obj ms, r2)
            | none => none
      else if c = '[' then
        match skipWs cs with
        | [] => none
        | d :: r =>
          if d = ']' then some (.arr [], r)
          else
            match parseElems fuel (d :: r) with
            | some (es, r2) => some (.arr es, r2)
            | none => none
      else if c = 't' then
        match expectChars ['r', 'u', 'e'] cs with
        | some r => some (.bool true, r)
        | none => none
      else if c = 'f' then
        match expectChars ['a', 'l', 's', 'e'] cs with
        | some r => some (.bool false, r)
        | none => none
      else if c = 'n' then
        match expectChars ['u', 'l', 'l'] cs with
        | some r => some (.null, r)
        | none => none
      else if c = 'N' then
        match expectChars ['a', 'N'] cs with
        | some r => some (.num ['N', 'a', 'N'], r)
        | none => none
      else if c = 'I' then
        match expectChars ['n', 'f', 'i', 'n', 'i', 't', 'y'] cs with
        | some r => some (.num ['I', 'n', 'f'], r)
        | none => none
      else if c = '-' then
        match cs with
        | [] => none
        | c2 :: cs' =>
          if c2 = 'I' then
            match expectChars ['n', 'f', 'i', 'n', 'i', 't', 'y'] cs' with
            | some r => some (.num ['-', 'I', 'n', 'f'], r)
            | none => none
          else
            match parseNumber (c :: c2 :: cs') with
            | some (raw, r) => some (.num raw, r)
            | none => none
      else if c.isDigit then
        match parseNumber (c :: cs) with
        | some (raw, r) => some (.num raw, r)
        | none => none
      else none) := rfl

theorem parseMembers_succ (fuel : Nat) (c : Char) (cs' : List Char) :
    parseMembers (fuel + 1) (c :: cs') =
      (if c = '"' then
        match parseStringBody cs' with
        | none => none
        | some (key, r1) =>
          match skipWs r1 with
          | [] => none
          | d :: r2 =>
            if d = ':' then
              match parseVal fuel (skipWs r2) with
              | none => none
              | some (v, r3) =>
                match skipWs r3 with
                | [] => none
                | d2 :: r4 =>
                  if d2 = ',' then
                    match parseMembers fuel (skipWs r4) with
                    | some (ms, r5) => some ((key, v) :: ms, r5)
                    | none => none
                  else if d2 = '\x7d' then some ([(key, v)], r4)
                  else none
            else none
      else none) := rfl

theorem parseElems_succ (fuel : Nat) (cs : List Char) :
    parseElems (fuel + 1) cs =
      (match parseVal fuel cs with
      | none => none
      | some (v, r1) =>
        match skipWs r1 with
        | [] => none
        | d :: r2 =>
          if d = ',' then
            match parseElems fuel (skipWs r2) with
            | some (es, r3) => some (v :: es, r3)
            | none => none
          else if d = ']' then some ([v], r2)
          else none) := rfl

theorem parseElems_nil : ∀ f, parseElems f [] = none := by
  intro f
  cases f with
  | zero => rfl
  | succ g => rw [parseElems_succ, parseVal_nil]

theorem parse_mono_step (f : Nat) :
    (∀ cs r, parseVal f cs = some r → parseVal (f + 1) cs = some r)
    ∧ (∀ cs r, parseMembers f cs = some r → parseMembers (f + 1) cs = some r)
    ∧ (∀ cs r, parseElems f cs = some r → parseElems (f + 1) cs = some r) := by
  induction f with
  | zero =>
    refine ⟨?_, ?_, ?_⟩
    · intro cs r h; exact absurd h (by rw [show parseVal 0 cs = none from rfl]; simp)
    · intro cs r h; exact absurd h (by rw [show parseMembers 0 cs = none from rfl]; simp)
    · intro cs r h; exact absurd h (by rw [show parseElems 0 cs = none from rfl]; simp)
  | succ g ih =>
    obtain ⟨ihv, ihm, ihe⟩ := ih
    refine ⟨?_, ?_, ?_⟩
    · -- parseVal
      intro cs r h
      match cs with
      | [] => rw [parseVal_nil] at h; exact absurd h (by simp)
      | c :: cs2 =>
        rw [parseVal_succ] at h
        rw [parseVal_succ]
        by_cases h1 : c = '"'
        · simpa [h1] using h
        · simp only [if_neg h1] at h ⊢
          by_cases h2 : c = '\x7b'
          · simp only [if_pos h2] at h ⊢
            match hsw : skipWs cs2 with
            | [] => rw [hsw] at h; simp at h
            | d :: r0 =>
              rw [hsw] at h
              by_cases hd : d = '\x7d'
              · simpa [hd] using h
              · simp only [if_neg hd] at h ⊢
                match hm : parseMembers g (d :: r0) with
                | none => rw [hm] at h; simp at h
                | some p => rw [hm] at h; rw [ihm _ _ hm]; exact h
          · simp only [if_neg h2] at h ⊢
            by_cases h3 : c = '['
            · simp only [if_pos h3] at h ⊢
              match hsw : skipWs cs2 with
              | [] => rw [hsw] at h; simp at h
              | d :: r0 =>
                rw [hsw] at h
                by_cases hd : d = ']'
                · simpa [hd] using h
                · simp only [if_neg hd] at h ⊢
                  match he : parseElems g (d :: r0) with
                  | none => rw [he] at h; simp at h
                  | some p => rw [he] at h; rw [ihe _ _ he]; exact h
            · simp only [if_neg h3] at h ⊢
              by_cases h4 : c = 't'
              · simpa [h4] using h
              · simp only [if_neg h4] at h ⊢
                by_cases h5 : c = 'f'
                · simpa [h5] using h
                · simp only [if_neg h5] at h ⊢
                  by_cases h6 : c = 'n'
                  · simpa [h6] using h
                  · simp only [if_neg h6] at h ⊢
                    by_cases h7 : c = 'N'
                    · simpa [h7] using h
                    · simp only [if_neg h7] at h ⊢
                      by_cases h8 : c = 'I'
                      · simpa [h8] using h
                      · simp only [if_neg h8] at h ⊢
                        by_cases h9 : c = '-'
                        · simpa [h9] using h
                        · simp only [if_neg h9] at h ⊢
                          by_cases h10 : c.isDigit
                          · simpa [h10] using h
                          · simp only [if_neg h10] at h
                            exact absurd h (by simp)
    · -- parseMembers
      intro cs r h
      match cs with
      | [] => rw [parseMembers_nil] at h; exact absurd h (by simp)
      | c :: cs2 =>
        rw [parseMembers_succ] at h
        rw [parseMembers_succ]
        by_cases h1 : c = '"'
        · simp only [if_pos h1] at h ⊢
          match hsb : parseStringBody cs2 with
          | none => rw [hsb] at h; simp at h
          | some (key, r1) =>
            rw [hsb] at h
            dsimp only at h ⊢
            match hsw : skipWs r1 with
            | [] => rw [hsw] at h; simp at h
            | d :: r2 =>
              rw [hsw] at h
              dsimp only at h ⊢
              by_cases hd : d = ':'
              · simp only [if_pos hd] at h ⊢
                match hv : parseVal g (skipWs r2) with
                | none => rw [hv] at h; simp at h
                | some (v, r3) =>
                  rw [hv] at h
                  dsimp only at h
                  rw [ihv _ _ hv]
                  dsimp only
                  match hsw2 : skipWs r3 with
                  | [] => rw [hsw2] at h; simp at h
                  | d2 :: r4 =>
                    rw [hsw2] at h
                    dsimp only at h ⊢
                    by_cases hd2 : d2 = ','
                    · simp only [if_pos hd2] at h ⊢
                      match hm : parseMembers g (skipWs r4) with
                      | none => rw [hm] at h; simp at h
                      | some p =>
                        rw [hm] at h
                        dsimp only at h
                        rw [ihm _ _ hm]
                        dsimp only
                        exact h
                    · simp only [if_neg hd2] at h ⊢
                      by_cases hd3 : d2 = '\x7d'
                      · simpa [hd3] using h
                      · simp only [if_neg hd3] at h
                        exact absurd h (by simp)
              · simp only [if_neg hd] at h
                exact absurd h (by simp)
        · simp only [if_neg h1] at h
          exact absurd h (by simp)
    · -- parseElems
      intro cs r h
      rw [parseElems_succ] at h
      rw [parseElems_succ]
      match hv : parseVal g cs with
      | none => rw [hv] at h; simp at h
      | some (v, r1) =>
        rw [hv] at h
        dsimp only at h
        rw [ihv _ _ hv]
        dsimp only
        match hsw : skipWs r1 with
        | [] => rw [hsw] at h; simp at h
        | d :: r2 =>
          rw [hsw] at h
          dsimp only at h ⊢
          by_cases hd : d = ','
          · simp only [if_pos hd] at h ⊢
            match he : parseElems g (skipWs r2) with
            | none => rw [he] at h; simp at h
            | some p =>
              rw [he] at h
              dsimp only at h
              rw [ihe _ _ he]
              dsimp only
              exact h
          · simp only [if_neg hd] at h ⊢
            by_cases hd2 : d = ']'
            · simpa [hd2] using h
            · simp only [if_neg hd2] at h
              exact absurd h (by simp)

/-- Fuel monotonicity: a successful parse stays successful with more fuel. -/
theorem parseVal_mono (f f' : Nat) (hf : f ≤ f') (cs : List Char) (r : JValue × List Char)
    (h : parseVal f cs = some r) : parseVal f' cs = some r := by
  induction f', hf using Nat.le_induction with
  | base => exact h
  | succ n hn ih => exact (parse_mono_step n).1 cs r ih

/-! ## Input-extension stability for the mutual parser -/

/-- If skipping whitespace from `r` exposes a separator or closing character,
`r` itself starts with a terminator. -/
theorem skipWs_cons_term (r : List Char) (d : Char) (t : List Char)
    (h : skipWs r = d :: t) (hd : d = ',' ∨ d = '\x7d' ∨ d = ']') : TermRest r := by
  match r with
  | [] => simp [skipWs] at h
  | c :: r' =>
    by_cases hws : isJsonWs c
    · show isTermChar c = true
      simp [isTermChar, hws]
    · rw [skipWs, if_neg hws] at h
      have hc : c = d := (List.cons.injEq .. ▸ h).1
      show isTermChar c = true
      rw [hc]
      rcases hd with rfl | rfl | rfl <;> decide

/-- A terminator character is not part of a number token. -/
theorem isTermChar_not_num (c : Char) (h : isTermChar c = true) :
    c ≠ '.' ∧ c ≠ 'e' ∧ c ≠ 'E' := by
  simp [isTermChar, isJsonWs] at h
  rcases h with ((rfl | rfl | rfl | rfl) | rfl | rfl | rfl) <;> exact ⟨by decide, by decide, by decide⟩

/-- Input-extension stability: a value whose parse succeeded keeps the same
parse when text is appended, provided the value is self-delimiting (starts
with `\x7b` or `[`) or its rest starts with a terminator character.  Objects,
arrays, strings and literals end at a closing token inside the input; only a
bare number can extend into appended text, which the side condition rules
out. -/
theorem parse_append_step (f : Nat) :
    (∀ cs v r ext, parseVal f cs = some (v, r) →
      (cs.head? = some '\x7b' ∨ cs.head? = some '[' ∨ TermRest r) →
      parseVal f (cs ++ ext) = some (v, r ++ ext))
    ∧ (∀ cs m r ext, parseMembers f cs = some (m, r) →
      parseMembers f (cs ++ ext) = some (m, r ++ ext))
    ∧ (∀ cs es r ext, parseElems f cs = some (es, r) →
      parseElems f (cs ++ ext) = some (es, r ++ ext)) := by
  induction f with
  | zero =>
    refine ⟨?_, ?_, ?_⟩
    · intro cs v r ext h _; exact absurd h (by rw [show parseVal 0 cs = none from rfl]; simp)
    · intro cs m r ext h; exact absurd h (by rw [show parseMembers 0 cs = none from rfl]; simp)
    · intro cs es r ext h; exact absurd h (by rw [show parseElems 0 cs = none from rfl]; simp)
  | succ g ih =>
    obtain ⟨ihv, ihm, ihe⟩ := ih
    refine ⟨?_, ?_, ?_⟩
    · -- parseVal
      intro cs v r ext h hcond
      match cs with
      | [] => rw [parseVal_nil] at h; exact absurd h (by simp)
      | c :: cs2 =>
        rw [parseVal_succ] at h
        rw [List.cons_append, parseVal_succ]
        by_cases h1 : c = '"'
        · simp only [if_pos h1] at h ⊢
          match hsb : parseStringBody cs2 with
          | none => rw [hsb] at h; simp at h
          | some (body, r0) =>
            rw [hsb] at h
            dsimp only at h
            simp only [Option.some.injEq, Prod.mk.injEq] at h
            obtain ⟨hv0, hr0⟩ := h
            subst hv0; subst hr0
            rw [parseStringBody_append cs2 body r0 ext hsb]
        · simp only [if_neg h1] at h ⊢
          by_cases h2 : c = '\x7b'
          · simp only [if_pos h2] at h ⊢
            match hsw : skipWs cs2 with
            | [] => rw [hsw] at h; simp at h
            | d :: r0 =>
              rw [hsw] at h
              dsimp only at h
              rw [skipWs_append_cons cs2 d r0 ext hsw]
              dsimp only
              by_cases hd : d = '\x7d'
              · simp only [if_pos hd] at h ⊢
                simp only [Option.some.injEq, Prod.mk.injEq] at h
                obtain ⟨hv0, hr0⟩ := h
                subst hv0; subst hr0
                rfl
              · simp only [if_neg hd] at h ⊢
                match hm : parseMembers g (d :: r0) with
                | none => rw [hm] at h; simp at h
                | some (ms, r2) =>
                  rw [hm] at h
                  dsimp only at h
                  simp only [Option.some.injEq, Prod.mk.injEq] at h
                  obtain ⟨hv0, hr0⟩ := h
                  subst hv0; subst hr0
                  have hx := ihm (d :: r0) ms r2 ext hm
                  rw [← List.cons_append, hx]
          · simp only [if_neg h2] at h ⊢
            by_cases h3 : c = '['
            · simp only [if_pos h3] at h ⊢
              match hsw : skipWs cs2 with
              | [] => rw [hsw] at h; simp at h
              | d :: r0 =>
                rw [hsw] at h
                dsimp only at h
                rw [skipWs_append_cons cs2 d r0 ext hsw]
                dsimp only
                by_cases hd : d = ']'
                · simp only [if_pos hd] at h ⊢
                  simp only [Option.some.injEq, Prod.mk.injEq] at h
                  obtain ⟨hv0, hr0⟩ := h
                  subst hv0; subst hr0
                  rfl
                · simp only [if_neg hd] at h ⊢
                  match hm : parseElems g (d :: r0) with
                  | none => rw [hm] at h; simp at h
                  | some (ms, r2) =>
                    rw [hm] at h
                    dsimp only at h
                    simp only [Option.some.injEq, Prod.mk.injEq] at h
                    obtain ⟨hv0, hr0⟩ := h
                    subst hv0; subst hr0
                    have hx := ihe (d :: r0) ms r2 ext hm
                    rw [← List.cons_append, hx]
            · simp only [if_neg h3] at h ⊢
              have hterm : TermRest r := by
                rcases hcond with hx | hx | hx
                · exact absurd (by simpa using hx) h2
                · exact absurd (by simpa using hx) h3
                · exact hx
              by_cases h4 : c = 't'
              · simp only [if_pos h4] at h ⊢
                match hec : expectChars ['r', 'u', 'e'] cs2 with
                | none => rw [hec] at h; simp at h
                | some r0 =>
                  rw [hec] at h
                  dsimp only at h
                  simp only [Option.some.injEq, Prod.mk.injEq] at h
                  obtain ⟨hv0, hr0⟩ := h
                  subst hv0; subst hr0
                  rw [expectChars_append _ cs2 r0 ext hec]
              · simp only [if_neg h4] at h ⊢
                by_cases h5 : c = 'f'
                · simp only [if_pos h5] at h ⊢
                  match hec : expectChars ['a', 'l', 's', 'e'] cs2 with
                  | none => rw [hec] at h; simp at h
                  | some r0 =>
                    rw [hec] at h
                    dsimp only at h
                    simp only [Option.some.injEq, Prod.mk.injEq] at h
                    obtain ⟨hv0, hr0⟩ := h
                    subst hv0; subst hr0
                    rw [expectChars_append _ cs2 r0 ext hec]
                · simp only [if_neg h5] at h ⊢
                  by_cases h6 : c = 'n'
                  · simp only [if_pos h6] at h ⊢
                    match hec : expectChars ['u', 'l', 'l'] cs2 with
                    | none => rw [hec] at h; simp at h
                    | some r0 =>
                      rw [hec] at h
                      dsimp only at h
                      simp only [Option.some.injEq, Prod.mk.injEq] at h
                      obtain ⟨hv0, hr0⟩ := h
                      subst hv0; subst hr0
                      rw [expectChars_append _ cs2 r0 ext hec]
                  · simp only [if_neg h6] at h ⊢
                    by_cases h7 : c = 'N'
                    · simp only [if_pos h7] at h ⊢
                      match hec : expectChars ['a', 'N'] cs2 with
                      | none => rw [hec] at h; simp at h
                      | some r0 =>
                        rw [hec] at h
                        dsimp only at h
                        simp only [Option.some.injEq, Prod.mk.injEq] at h
                        obtain ⟨hv0, hr0⟩ := h
                        subst hv0; subst hr0
                        rw [expectChars_append _ cs2 r0 ext hec]
                    · simp only [if_neg h7] at h ⊢
                      by_cases h8 : c = 'I'
                      · simp only [if_pos h8] at h ⊢
                        match hec : expectChars ['n', 'f', 'i', 'n', 'i', 't', 'y'] cs2 with
                        | none => rw [hec] at h; simp at h
                        | some r0 =>
                          rw [hec] at h
                          dsimp only at h
                          simp only [Option.some.injEq, Prod.mk.injEq] at h
                          obtain ⟨hv0, hr0⟩ := h
                          subst hv0; subst hr0
                          rw [expectChars_append _ cs2 r0 ext hec]
                      · simp only [if_neg h8] at h ⊢
                        by_cases h9 : c = '-'
                        · simp only [if_pos h9] at h ⊢
                          match cs2 with
                          | [] => simp at h
                          | c2 :: cs2' =>
                            dsimp only at h
                            rw [List.cons_append]
                            dsimp only
                            by_cases hc2 : c2 = 'I'
                            · simp only [if_pos hc2] at h ⊢
                              match hec : expectChars ['n', 'f', 'i', 'n', 'i', 't', 'y'] cs2' with
                              | none => rw [hec] at h; simp at h
                              | some r0 =>
                                rw [hec] at h
                                dsimp only at h
                                simp only [Option.some.injEq, Prod.mk.injEq] at h
                                obtain ⟨hv0, hr0⟩ := h
                                subst hv0; subst hr0
                                rw [expectChars_append _ cs2' r0 ext hec]
                            · simp only [if_neg hc2] at h ⊢
                              match hpn : parseNumber (c :: c2 :: cs2') with
                              | none => rw [hpn] at h; simp at h
                              | some (raw, r2) =>
                                rw [hpn] at h
                                dsimp only at h
                                simp only [Option.some.injEq, Prod.mk.injEq] at h
                                obtain ⟨hv0, hr0⟩ := h
                                subst hv0; subst hr0
                                match r2, hterm, hpn with
                                | rc :: rt, hterm, hpn =>
                                  have hnn := isTermChar_not_num rc hterm
                                  have hx := parseNumber_append (c :: c2 :: cs2') raw rc rt ext hpn hnn.1 hnn.2.1 hnn.2.2
                                  rw [← List.cons_append, ← List.cons_append, hx]
                                  rfl
                        · simp only [if_neg h9] at h ⊢
                          by_cases h10 : c.isDigit
                          · simp only [if_pos h10, if_true] at h ⊢
                            match hpn : parseNumber (c :: cs2) with
                            | none => rw [hpn] at h; simp at h
                            | some (raw, r2) =>
                              rw [hpn] at h
                              dsimp only at h
                              simp only [Option.some.injEq, Prod.mk.injEq] at h
                              obtain ⟨hv0, hr0⟩ := h
                              subst hv0; subst hr0
                              match r2, hterm, hpn with
                              | rc :: rt, hterm, hpn =>
                                have hnn := isTermChar_not_num rc hterm
                                have hx := parseNumber_append (c :: cs2) raw rc rt ext hpn hnn.1 hnn.2.1 hnn.2.2
                                rw [← List.cons_append, hx]
                                rfl
                          · simp only [if_neg h10] at h
                            exact absurd h (by simp)
    · -- parseMembers
      intro cs m r ext h
      match cs with
      | [] => rw [parseMembers_nil] at h; exact absurd h (by simp)
      | c :: cs2 =>
        rw [parseMembers_succ] at h
        rw [List.cons_append, parseMembers_succ]
        by_cases h1 : c = '"'
        · simp only [if_pos h1] at h ⊢
          match hsb : parseStringBody cs2 with
          | none => rw [hsb] at h; simp at h
          | some (key, r1) =>
            rw [hsb] at h
            dsimp only at h
            rw [parseStringBody_append cs2 key r1 ext hsb]
            dsimp only
            match hsw : skipWs r1 with
            | [] => rw [hsw] at h; simp at h
            | d :: r2 =>
              rw [hsw] at h
              dsimp only at h
              rw [skipWs_append_cons r1 d r2 ext hsw]
              dsimp only
              by_cases hd : d = ':'
              · simp only [if_pos hd] at h ⊢
                match hsk : skipWs r2 with
                | [] => rw [hsk, parseVal_nil] at h; simp at h
                | x :: xs =>
                  rw [hsk] at h
                  rw [skipWs_append_cons r2 x xs ext hsk]
                  match hv : parseVal g (x :: xs) with
                  | none => rw [hv] at h; simp at h
                  | some (v, r3) =>
                    rw [hv] at h
                    dsimp only at h
                    match hsw2 : skipWs r3 with
                    | [] => rw [hsw2] at h; simp at h
                    | d2 :: r4 =>
                      rw [hsw2] at h
                      dsimp only at h
                      by_cases hd2 : d2 = ','
                      · simp only [if_pos hd2] at h
                        have hterm : TermRest r3 := skipWs_cons_term r3 d2 r4 hsw2 (Or.inl hd2)
                        have hv2 := ihv (x :: xs) v r3 ext hv (Or.inr (Or.inr hterm))
                        rw [← List.cons_append, hv2]
                        dsimp only
                        rw [skipWs_append_cons r3 d2 r4 ext hsw2]
                        dsimp only
                        simp only [if_pos hd2]
                        match hsk4 : skipWs r4 with
                        | [] => rw [hsk4, parseMembers_nil] at h; simp at h
                        | y :: ys =>
                          rw [hsk4] at h
                          rw [skipWs_append_cons r4 y ys ext hsk4]
                          match hm : parseMembers g (y :: ys) with
                          | none => rw [hm] at h; simp at h
                          | some (ms, r5) =>
                            rw [hm] at h
                            dsimp only at h
                            simp only [Option.some.injEq, Prod.mk.injEq] at h
                            obtain ⟨hm0, hr0⟩ := h
                            subst hr0
                            rw [← List.cons_append, ihm (y :: ys) ms r5 ext hm]
                            dsimp only
                            rw [← hm0]
                      · simp only [if_neg hd2] at h
                        by_cases hd3 : d2 = '\x7d'
                        · simp only [if_pos hd3] at h
                          simp only [Option.some.injEq, Prod.mk.injEq] at h
                          obtain ⟨hm0, hr0⟩ := h
                          subst hr0
                          have hterm : TermRest r3 := skipWs_cons_term r3 d2 r4 hsw2 (Or.inr (Or.inl hd3))
                          have hv2 := ihv (x :: xs) v r3 ext hv (Or.inr (Or.inr hterm))
                          rw [← List.cons_append, hv2]
                          dsimp only
                          rw [skipWs_append_cons r3 d2 r4 ext hsw2]
                          dsimp only
                          simp only [if_neg hd2, if_pos hd3]
                          rw [← hm0]
                        · simp only [if_neg hd3] at h
                          exact absurd h (by simp)
              · simp only [if_neg hd] at h
                exact absurd h (by simp)
        · simp only [if_neg h1] at h
          exact absurd h (by simp)
    · -- parseElems
      intro cs es r ext h
      rw [parseElems_succ] at h
      rw [parseElems_succ]
      match hv : parseVal g cs with
      | none => rw [hv] at h; simp at h
      | some (v, r1) =>
        rw [hv] at h
        dsimp only at h
        match hsw : skipWs r1 with
        | [] => rw [hsw] at h; simp at h
        | d :: r2 =>
          rw [hsw] at h
          dsimp only at h
          by_cases hd : d = ','
          · simp only [if_pos hd] at h
            have hterm : TermRest r1 := skipWs_cons_term r1 d r2 hsw (Or.inl hd)
            have hv2 := ihv cs v r1 ext hv (Or.inr (Or.inr hterm))
            rw [hv2]
            dsimp only
            rw [skipWs_append_cons r1 d r2 ext hsw]
            dsimp only
            simp only [if_pos hd]
            match hsk : skipWs r2 with
            | [] => rw [hsk, parseElems_nil] at h; simp at h
            | y :: ys =>
              rw [hsk] at h
              rw [skipWs_append_cons r2 y ys ext hsk]
              match he2 : parseElems g (y :: ys) with
              | none => rw [he2] at h; simp at h
              | some (es2, r3) =>
                rw [he2] at h
                dsimp only at h
                simp only [Option.some.injEq, Prod.mk.injEq] at h
                obtain ⟨he0, hr0⟩ := h
                subst hr0
                rw [← List.cons_append, ihe (y :: ys) es2 r3 ext he2]
                dsimp only
                rw [← he0]
          · simp only [if_neg hd] at h
            by_cases hd2 : d = ']'
            · simp only [if_pos hd2] at h
              simp only [Option.some.injEq, Prod.mk.injEq] at h
              obtain ⟨he0, hr0⟩ := h
              subst hr0
              have hterm : TermRest r1 := skipWs_cons_term r1 d r2 hsw (Or.inr (Or.inr hd2))
              have hv2 := ihv cs v r1 ext hv (Or.inr (Or.inr hterm))
              rw [hv2]
              dsimp only
              rw [skipWs_append_cons r1 d r2 ext hsw]
              dsimp only
              simp only [if_neg hd, if_pos hd2]
              rw [← he0]
            · simp only [if_neg hd2] at h
              exact absurd h (by simp)

theorem parseVal_vtab (f : Nat) (c : Char) (t : List Char)
    (hc : c = '\x0b' ∨ c = '\x0c') : parseVal f (c :: t) = none := by
  cases f with
  | zero => rfl
  | succ g =>
    rw [parseVal_succ]
    rcases hc with rfl | rfl <;>
      simp [show ¬('\x0b' : Char) = '"' from by decide, show ¬('\x0c' : Char) = '"' from by decide,
        show ¬('\x0b' : Char) = '\x7b' from by decide, show ¬('\x0c' : Char) = '\x7b' from by decide,
        show ¬('\x0b' : Char) = '[' from by decide, show ¬('\x0c' : Char) = '[' from by decide,
        show ¬('\x0b' : Char) = 't' from by decide, show ¬('\x0c' : Char) = 't' from by decide,
        show ¬('\x0b' : Char) = 'f' from by decide, show ¬('\x0c' : Char) = 'f' from by decide,
        show ¬('\x0b' : Char) = 'n' from by decide, show ¬('\x0c' : Char) = 'n' from by decide,
        show ¬('\x0b' : Char) = 'N' from by decide, show ¬('\x0c' : Char) = 'N' from by decide,
        show ¬('\x0b' : Char) = 'I' from by decide, show ¬('\x0c' : Char) = 'I' from by decide,
        show ¬('\x0b' : Char) = '-' from by decide, show ¬('\x0c' : Char) = '-' from by decide,
        show ('\x0b' : Char).isDigit = false from by decide,
        show ('\x0c' : Char).isDigit = false from by decide]

/-- Appending a single non-whitespace character to a successfully parsed
JSON document whose first significant character is `\x7b` or `[` makes the
whole parse fail: the appended character is trailing "Extra data". -/
theorem jsonLoadsList_append_close (cs : List Char) (v : JValue) (close : Char)
    (h : jsonLoadsList cs = some v)
    (hhead : (pyStripL cs).head? = some '\x7b' ∨ (pyStripL cs).head? = some '[')
    (hclose : isJsonWs close = false) :
    jsonLoadsList (cs ++ [close]) = none := by
  rw [jsonLoadsList] at h
  match hp : parseVal (cs.length + 2) (skipWs cs) with
  | none => rw [hp] at h; simp at h
  | some (v0, rest) =>
    rw [hp] at h
    dsimp only at h
    by_cases hrest : skipWs rest = []
    · have hskip_eq : skipWs cs = pyStripL cs := by
        rcases skipWs_eq_pyStripL_or cs with heq | ⟨t, ht | ht⟩
        · exact heq
        · rw [ht, parseVal_vtab _ _ _ (Or.inl rfl)] at hp; exact absurd hp (by simp)
        · rw [ht, parseVal_vtab _ _ _ (Or.inr rfl)] at hp; exact absurd hp (by simp)
      have hcond : (skipWs cs).head? = some '\x7b' ∨ (skipWs cs).head? = some '[' := by
        rw [hskip_eq]; exact hhead
      have hne : skipWs cs ≠ [] := by
        rcases hcond with hx | hx <;> (intro hzero; rw [hzero] at hx; simp at hx)
      obtain ⟨c0, t0, hct⟩ : ∃ c0 t0, skipWs cs = c0 :: t0 := by
        match hsk : skipWs cs with
        | [] => exact absurd hsk hne
        | c0 :: t0 => exact ⟨c0, t0, rfl⟩
      have hstep := (parse_append_step (cs.length + 2)).1 (skipWs cs) v0 rest [close] hp
        (by rcases hcond with hx | hx
            · exact Or.inl (by simpa using hx)
            · exact Or.inr (Or.inl (by simpa using hx)))
      have hmono := parseVal_mono (cs.length + 2) ((cs ++ [close]).length + 2)
        (by simp) (skipWs cs ++ [close]) (v0, rest ++ [close]) hstep
      have hsw2 : skipWs (cs ++ [close]) = skipWs cs ++ [close] := by
        rw [hct]
        exact skipWs_append_cons cs c0 t0 [close] hct
      rw [jsonLoadsList, hsw2, hmono]
      dsimp only
      have hrest2 : skipWs (rest ++ [close]) = [close] := by
        rw [skipWs_append_nil rest [close] hrest, skipWs, if_neg (by simp [hclose])]
      rw [hrest2]
      simp
    · rw [if_neg hrest] at h
      exact absurd h (by simp)

/-! ## Helper lemmas for the claim theorems -/

theorem processRow_empty (rn : Nat) : processRow rn [] = ⟨false, none, [Msg.emptyRow rn]⟩ := rfl

theorem processRow_noData (rn : Nat) (row : List String) (h : row ≠ [])
    (h2 : max_by_len row = "") : processRow rn row = ⟨false, none, [Msg.noData rn]⟩ := by
  rw [processRow, if_neg h]
  dsimp only
  rw [if_pos h2]

theorem processRow_success (rn : Nat) (row : List String) (h : row ≠ [])
    (h2 : max_by_len row ≠ "") :
    (processRow rn row).success = true ∧ (processRow rn row).written = some (max_by_len row) := by
  rw [processRow, if_neg h]
  dsimp only
  rw [if_neg h2]
  exact ⟨rfl, rfl⟩

theorem singleGo_written (rows : List (List String)) : ∀ (cur rn : Nat) (c : String),
    (singleGo rn rows cur).written = some c →
    ∃ r, r ∈ rows ∧ r ≠ [] ∧ c = max_by_len r := by
  induction rows with
  | nil =>
    intro cur rn c h
    rw [singleGo] at h
    by_cases hc : cur = 0 <;> simp [hc] at h
  | cons row rest ih =>
    intro cur rn c h
    rw [singleGo] at h
    by_cases heq : cur + 1 = rn
    · rw [if_pos heq] at h
      by_cases hrow : row = []
      · rw [processRow, if_pos hrow] at h; simp at h
      · rw [processRow, if_neg hrow] at h
        dsimp only at h
        by_cases hjc : max_by_len row = ""
        · rw [if_pos hjc] at h; simp at h
        · rw [if_neg hjc] at h
          simp only [Option.some.injEq] at h
          exact ⟨row, List.mem_cons_self .., hrow, h.symm⟩
    · rw [if_neg heq] at h
      obtain ⟨r, hr, hne, hc⟩ := ih (cur + 1) rn c h
      exact ⟨r, List.mem_cons_of_mem _ hr, hne, hc⟩

theorem filesOf_eq_nil (rows : List (List String)) : ∀ cur : Nat,
    rows.countP (fun r => !skippable r) = 0 → filesOf rows cur = [] := by
  induction rows with
  | nil => intro cur _; simp [filesOf, List.enumFrom]
  | cons row rest ih =>
    intro cur hcount
    rw [List.countP_cons] at hcount
    by_cases hskip : skippable row
    · have hrest : rest.countP (fun r => !skippable r) = 0 := by
        simpa [hskip] using hcount
      have : filesOf (row :: rest) cur = filesOf rest (cur + 1) := by
        simp [filesOf, List.enumFrom, hskip]
      rw [this]
      exact ih (cur + 1) hrest
    · simp [hskip] at hcount

theorem filesOf_mem_intro (rows : List (List String)) : ∀ (cur j : Nat) (hj : j < rows.length),
    skippable (rows.get ⟨j, hj⟩) = false →
    (cur + 1 + j, max_by_len (rows.get ⟨j, hj⟩)) ∈ filesOf rows cur := by
  induction rows with
  | nil => intro cur j hj; simp at hj
  | cons row rest ih =>
    intro cur j hj hskip
    match j, hj, hskip with
    | 0, hj, hskip =>
      have hs : skippable row = false := by simpa using hskip
      have : filesOf (row :: rest) cur
          = (cur + 1, max_by_len row) :: filesOf rest (cur + 1) := by
        simp [filesOf, List.enumFrom, hs]
      rw [this]
      simp
    | j' + 1, hj, hskip =>
      have hj' : j' < rest.length := by simpa using hj
      have hsk : skippable (rest.get ⟨j', hj'⟩) = false := by simpa using hskip
      have hmem := ih (cur + 1) j' hj' hsk
      have harith : cur + 1 + (j' + 1) = (cur + 1) + 1 + j' := by omega
      by_cases hs : skippable row
      · have : filesOf (row :: rest) cur = filesOf rest (cur + 1) := by
          simp [filesOf, List.enumFrom, hs]
        rw [this, harith]
        simpa using hmem
      · have : filesOf (row :: rest) cur
            = (cur + 1, max_by_len row) :: filesOf rest (cur + 1) := by
          simp [filesOf, List.enumFrom, hs]
        rw [this, harith]
        exact List.mem_cons_of_mem _ (by simpa using hmem)

theorem countP_split (rows : List (List String)) :
    rows.countP (fun r => !skippable r) + rows.countP (fun r => skippable r) = rows.length := by
  induction rows with
  | nil => simp
  | cons row rest ih =>
    rw [List.countP_cons, List.countP_cons]
    by_cases hs : skippable row <;> simp [hs] <;> omega

/-! ## Claim theorems -/

/-- C1: for every parsed CSV row with at least one field, both extractors
select as the JSON column the field of maximum character length, and on ties
the first-occurring field is selected: `max(row, key=len)` returns a field of
the row that no field exceeds in length and that strictly exceeds every
earlier field, and everything either extractor writes is `max_by_len` of a
nonempty row of the input. -/
theorem claim_C1_select_first_longest (row : List String) (h : row ≠ []) :
    (∃ i, ∃ hi : i < row.length,
      max_by_len row = row.get ⟨i, hi⟩
      ∧ (∀ f ∈ row, f.length ≤ (row.get ⟨i, hi⟩).length)
      ∧ ∀ j, ∀ hj : j < row.length, j < i →
          (row.get ⟨j, hj⟩).length < (row.get ⟨i, hi⟩).length)
    ∧ (∀ rows (rn : Nat) (c : String), (extract_single_row rows rn).written = some c →
        ∃ r, r ∈ rows ∧ r ≠ [] ∧ c = max_by_len r)
    ∧ (∀ rows (p : Nat × String), p ∈ (extract_all_rows rows none).files →
        ∃ r, r ∈ rows ∧ r ≠ [] ∧ p.2 = max_by_len r) := by
  refine ⟨max_by_len_spec row h, ?_, ?_⟩
  · intro rows rn c hw
    exact singleGo_written rows 0 rn c hw
  · intro rows p hp
    obtain ⟨n, c2⟩ := p
    rw [extract_all_rows, allRowsGo_none] at hp
    dsimp only at hp
    rw [List.nil_append] at hp
    obtain ⟨j, hj, hn, hsk, hc⟩ := mem_filesOf rows 0 n c2 hp
    refine ⟨rows.get ⟨j, hj⟩, List.get_mem .., ?_, hc⟩
    intro hnil
    rw [hnil] at hsk
    exact absurd hsk (by decide)

/-- C1 witness at the row `["a", "bb", "cc"]`: the selected field is `"bb"`,
the first of the two longest fields. -/
theorem claim_C1_witness :
    (∃ i, ∃ hi : i < (["a", "bb", "cc"] : List String).length,
      max_by_len ["a", "bb", "cc"] = (["a", "bb", "cc"] : List String).get ⟨i, hi⟩
      ∧ (∀ f ∈ (["a", "bb", "cc"] : List String),
          f.length ≤ ((["a", "bb", "cc"] : List String).get ⟨i, hi⟩).length)
      ∧ ∀ j, ∀ hj : j < (["a", "bb", "cc"] : List String).length, j < i →
          (((["a", "bb", "cc"] : List String).get ⟨j, hj⟩).length
            < ((["a", "bb", "cc"] : List String).get ⟨i, hi⟩).length))
    ∧ (∀ rows (rn : Nat) (c : String), (extract_single_row rows rn).written = some c →
        ∃ r, r ∈ rows ∧ r ≠ [] ∧ c = max_by_len r)
    ∧ (∀ rows (p : Nat × String), p ∈ (extract_all_rows rows none).files →
        ∃ r, r ∈ rows ∧ r ≠ [] ∧ p.2 = max_by_len r) :=
  claim_C1_select_first_longest ["a", "bb", "cc"] (by decide)

/-- C2 counterexample: with records `[["ab"], ["cd"]]` and a file-level
exception striking after the first record (e.g. the reader or the second
row's file write raising), the run returns failure even though one row was
extracted, and the file for row 1 has been written — contradicting both the
"success iff at least one row extracted" equivalence and "failure with no
output files written". -/
theorem claim_C2_counterexample :
    (extract_all_rows [["ab"], ["cd"]] (some 1)).success = false
    ∧ 0 < (extract_all_rows [["ab"], ["cd"]] (some 1)).extracted
    ∧ (extract_all_rows [["ab"], ["cd"]] (some 1)).files = [(1, "ab")] := by
  refine ⟨?_, ?_, ?_⟩ <;> decide

/-- C2 amended: in a run with no file-level exception, the all-rows extractor
returns success iff at least one row was extracted, and on failure no file
was written; a file-level exception that interrupts the run forces failure
(files written before it remain on disk). -/
theorem claim_C2_amended_success_iff (rows : List (List String)) :
    ((extract_all_rows rows none).success = true ↔ 0 < (extract_all_rows rows none).extracted)
    ∧ ((extract_all_rows rows none).success = false → (extract_all_rows rows none).files = [])
    ∧ (∀ k, k ≤ rows.length → (extract_all_rows rows (some k)).success = false) := by
  refine ⟨?_, ?_, ?_⟩
  · rw [extract_all_rows, allRowsGo_none]
    simp
  · rw [extract_all_rows, allRowsGo_none]
    dsimp only
    intro hfalse
    rw [List.nil_append]
    refine filesOf_eq_nil rows 0 ?_
    simpa using hfalse
  · intro k hk
    exact allRowsGo_fault rows k 0 0 0 [] [] hk

/-- C2 witness: with both rows skippable the fault-free run fails and writes
nothing, and an exception after one record forces failure. -/
theorem claim_C2_witness :
    (extract_all_rows [[], ["x"]] none).files = []
    ∧ (extract_all_rows [[], ["x"]] (some 1)).success = false := by
  have h := claim_C2_amended_success_iff [[], ["x"]]
  exact ⟨h.2.1 (by decide), h.2.2 1 (by decide)⟩

/-- C3 counterexample: on the row `[" "]` the selected longest field is `" "`,
which is empty after trimming, yet the single-row extractor succeeds and
writes the raw text — the code only rejects the empty string (line 55
`if not json_column`), not a field that is empty after stripping. -/
theorem claim_C3_counterexample :
    pyStrip " " = []
    ∧ (extract_single_row [[" "]] 1).success = true
    ∧ (extract_single_row [[" "]] 1).written = some " " := by
  refine ⟨?_, ?_, ?_⟩ <;> decide

/-- C3 amended: upon reaching the target row, the single-row extractor fails
with the empty-row report when the row has zero fields, fails with the
no-data report when the selected longest field is the empty string, and
otherwise writes the field's raw text verbatim and returns success. -/
theorem claim_C3_amended_empty_string (rows : List (List String)) (rn : Nat)
    (h1 : 1 ≤ rn) (hlt : rn - 1 < rows.length) :
    (rows.get ⟨rn - 1, hlt⟩ = [] →
      extract_single_row rows rn = ⟨false, none, [Msg.emptyRow rn]⟩)
    ∧ (rows.get ⟨rn - 1, hlt⟩ ≠ [] → max_by_len (rows.get ⟨rn - 1, hlt⟩) = "" →
      extract_single_row rows rn = ⟨false, none, [Msg.noData rn]⟩)
    ∧ (rows.get ⟨rn - 1, hlt⟩ ≠ [] → max_by_len (rows.get ⟨rn - 1, hlt⟩) ≠ "" →
      (extract_single_row rows rn).success = true
      ∧ (extract_single_row rows rn).written = some (max_by_len (rows.get ⟨rn - 1, hlt⟩))) := by
  rw [extract_single_row_found rows rn h1 hlt]
  refine ⟨?_, ?_, ?_⟩
  · intro hrow
    rw [hrow, processRow_empty]
  · intro hrow hjc
    rw [processRow_noData rn _ hrow hjc]
  · intro hrow hjc
    exact processRow_success rn _ hrow hjc

/-- C3 witness: row 1 of `[["ab"]]` is nonempty with longest field `"ab"`,
so extraction succeeds and writes exactly `"ab"`. -/
theorem claim_C3_witness :
    (extract_single_row [["ab"]] 1).success = true
    ∧ (extract_single_row [["ab"]] 1).written = some (max_by_len ["ab"]) :=
  (claim_C3_amended_empty_string [["ab"]] 1 (by decide) (by decide)).2.2
    (by decide) (by decide)

/-- C4: with zero parsed records the single-row extractor's trailing report
uses the loop variable `current_row_num` that was never bound; the resulting
`NameError` is caught by the generic handler, so the record count (0) is
never reported — while for a nonempty file with too few records the count is
reported as the claim states. -/
theorem claim_C4_zero_records_report :
    extract_single_row [] 1 = ⟨false, none, [Msg.errorException]⟩
    ∧ Msg.tooFewRows 0 ∉ (extract_single_row [] 1).messages
    ∧ (∀ rows (rn : Nat), rows ≠ [] → rows.length < rn →
        extract_single_row rows rn = ⟨false, none, [Msg.tooFewRows rows.length]⟩) := by
  refine ⟨by decide, by decide, ?_⟩
  intro rows rn hne hlt
  exact extract_single_row_tooFew rows rn hne hlt

/-- C4 witness: a one-record file asked for row 2 reports one record
present. -/
theorem claim_C4_witness :
    extract_single_row [["a"]] 2 = ⟨false, none, [Msg.tooFewRows 1]⟩ :=
  claim_C4_zero_records_report.2.2 [["a"]] 2 (by decide) (by decide)

/-- C8: a parsed row with zero fields makes single-row extraction targeting
it fail with the empty-row error, and the all-rows extractor counts it as
skipped (the skip counter counts exactly the skippable records, this row
among them) and writes no file numbered for it. -/
theorem claim_C8_empty_rows (rows : List (List String)) (j : Nat) (hj : j < rows.length)
    (hempty : rows.get ⟨j, hj⟩ = []) :
    extract_single_row rows (j + 1) = ⟨false, none, [Msg.emptyRow (j + 1)]⟩
    ∧ (extract_all_rows rows none).skipped = rows.countP (fun r => skippable r)
    ∧ 0 < (extract_all_rows rows none).skipped
    ∧ ∀ c, (j + 1, c) ∉ (extract_all_rows rows none).files := by
  refine ⟨?_, ?_, ?_, ?_⟩
  · have hfound := extract_single_row_found rows (j + 1) (by omega) (by simpa using hj)
    rw [hfound]
    have : rows.get ⟨j + 1 - 1, by simpa using hj⟩ = ([] : List String) := by
      simpa using hempty
    rw [this, processRow_empty]
  · rw [extract_all_rows, allRowsGo_none]
    simp
  · rw [extract_all_rows, allRowsGo_none]
    dsimp only
    have : skippable (rows.get ⟨j, hj⟩) = true := by
      rw [hempty]
      decide
    have hpos : 0 < rows.countP (fun r => skippable r) :=
      List.countP_pos_iff.mpr ⟨rows.get ⟨j, hj⟩, List.get_mem .., this⟩
    omega
  · intro c hmem
    rw [extract_all_rows, allRowsGo_none] at hmem
    dsimp only at hmem
    rw [List.nil_append] at hmem
    obtain ⟨j2, hj2, hn, hsk, -⟩ := mem_filesOf rows 0 (j + 1) c hmem
    have : j2 = j := by omega
    subst this
    rw [show (⟨j2, hj2⟩ : Fin rows.length) = ⟨j2, hj⟩ from rfl] at hsk
    rw [hempty] at hsk
    exact absurd hsk (by decide)

/-- C8 witness: the file `[[], ["ab"]]` — row 1 is empty: single-row
extraction of row 1 fails with the empty-row error, one record is counted
skipped, and no file numbered 1 exists. -/
theorem claim_C8_witness :
    extract_single_row [[], ["ab"]] 1 = ⟨false, none, [Msg.emptyRow 1]⟩
    ∧ 0 < (extract_all_rows [[], ["ab"]] none).skipped
    ∧ ∀ c, (1, c) ∉ (extract_all_rows [[], ["ab"]] none).files := by
  have h := claim_C8_empty_rows [[], ["ab"]] 0 (by decide) (by decide)
  exact ⟨h.1, h.2.2.1, h.2.2.2⟩

/-- C10: in a fault-free all-rows run every parsed record is counted exactly
once — as extracted or as skipped — so the two counters sum to the number of
records. -/
theorem claim_C10_counters_partition (rows : List (List String)) :
    (extract_all_rows rows none).extracted = rows.countP (fun r => !skippable r)
    ∧ (extract_all_rows rows none).skipped = rows.countP (fun r => skippable r)
    ∧ (extract_all_rows rows none).extracted + (extract_all_rows rows none).skipped
      = rows.length := by
  rw [extract_all_rows, allRowsGo_none]
  refine ⟨by simp, by simp, ?_⟩
  dsimp only
  have hsplit := countP_split rows
  omega

/-- C5: the validator fails whenever the first non-whitespace character is
not `[` or `\x7b` (reporting the wrong start), whereas a last non-whitespace
character outside `]`/`\x7d` only adds a warning: the parse is still
attempted and alone decides the outcome. -/
theorem claim_C5_wrong_start_fails (content : String) :
    (∀ c rest, pyStrip content = c :: rest → ¬(c = '[' ∨ c = '\x7b') →
      validate_json_file content = (false, [VMsg.wrongStart c]))
    ∧ (∀ c rest, pyStrip content = c :: rest → (c = '[' ∨ c = '\x7b') →
      (validate_json_file content).1 = (jsonLoads content).isSome
      ∧ (¬((c :: rest).getLastD c = ']' ∨ (c :: rest).getLastD c = '\x7d') →
          VMsg.wrongEnd ((c :: rest).getLastD c) ∈ (validate_json_file content).2)) := by
  constructor
  · intro c rest hstrip hc
    simp only [validate_json_file]
    rw [hstrip]
    dsimp only
    rw [if_neg hc]
  · intro c rest hstrip hc
    simp only [validate_json_file]
    rw [hstrip]
    dsimp only
    rw [if_pos hc]
    constructor
    · match hj : jsonLoads content with
      | some v => rfl
      | none => rfl
    · intro hlast
      rw [if_neg hlast]
      match hj : jsonLoads content with
      | some v => simp
      | none => simp

/-- C5 witness at `"[1"`: wrong last character `'1'` yields only a warning,
the parse is attempted, fails, and decides the failure outcome. -/
theorem claim_C5_witness :
    (validate_json_file "[1").1 = false
    ∧ VMsg.wrongEnd '1' ∈ (validate_json_file "[1").2 := by
  have h := (claim_C5_wrong_start_fails "[1").2 '[' ['1'] (by decide) (Or.inl rfl)
  constructor
  · rw [h.1]
    decide
  · exact h.2 (by decide)

/-- C6: when the full parse fails (and the first character was acceptable),
the validator reports the parse error, reports the signed brace imbalance
`count('\x7b') - count('\x7d')` exactly when it is non-zero, likewise the
bracket imbalance `count('[') - count(']')`, and returns failure regardless
of whether the counts balance. -/
theorem claim_C6_parse_failure_balance (content : String) (c : Char) (rest : List Char)
    (hstrip : pyStrip content = c :: rest) (hc : c = '[' ∨ c = '\x7b')
    (hfail : jsonLoads content = none) :
    (validate_json_file content).1 = false
    ∧ VMsg.parseError ∈ (validate_json_file content).2
    ∧ (braceBalance content ≠ 0 ↔
        VMsg.unmatchedBraces (braceBalance content) ∈ (validate_json_file content).2)
    ∧ (bracketBalance content ≠ 0 ↔
        VMsg.unmatchedBrackets (bracketBalance content) ∈ (validate_json_file content).2) := by
  have hval : validate_json_file content =
      (false,
        (if (c :: rest).getLastD c = ']' ∨ (c :: rest).getLastD c = '\x7d' then []
          else [VMsg.wrongEnd ((c :: rest).getLastD c)])
        ++ [VMsg.parseError]
        ++ (if braceBalance content ≠ 0 then [VMsg.unmatchedBraces (braceBalance content)] else [])
        ++ (if bracketBalance content ≠ 0 then [VMsg.unmatchedBrackets (bracketBalance content)] else [])) := by
    simp only [validate_json_file]
    rw [hstrip]
    dsimp only
    rw [if_pos hc, hfail]
  rw [hval]
  refine ⟨rfl, ?_, ?_, ?_⟩
  · simp
  · constructor
    · intro hbal
      simp [hbal]
    · intro hmem
      intro hzero
      rw [hzero] at hmem
      by_cases hlast : (c :: rest).getLastD c = ']' ∨ (c :: rest).getLastD c = '\x7d' <;>
        by_cases hbal2 : bracketBalance content ≠ 0 <;>
          simp [hlast, hbal2] at hmem
  · constructor
    · intro hbal
      simp [hbal]
    · intro hmem
      intro hzero
      rw [hzero] at hmem
      by_cases hlast : (c :: rest).getLastD c = ']' ∨ (c :: rest).getLastD c = '\x7d' <;>
        by_cases hbal2 : braceBalance content ≠ 0 <;>
          simp [hlast, hbal2] at hmem

/-- C6 witness at the spec's example `'\x7b"a": 1'`: parse fails, brace
imbalance is `+1` and is reported, bracket imbalance is `0` and is not. -/
theorem claim_C6_witness :
    braceBalance "\x7b\"a\": 1" = 1
    ∧ bracketBalance "\x7b\"a\": 1" = 0
    ∧ (validate_json_file "\x7b\"a\": 1").1 = false
    ∧ VMsg.parseError ∈ (validate_json_file "\x7b\"a\": 1").2
    ∧ VMsg.unmatchedBraces 1 ∈ (validate_json_file "\x7b\"a\": 1").2
    ∧ VMsg.unmatchedBrackets 0 ∉ (validate_json_file "\x7b\"a\": 1").2 := by
  have h := claim_C6_parse_failure_balance "\x7b\"a\": 1" '\x7b'
    ['"', 'a', '"', ':', ' ', '1'] (by decide) (Or.inr rfl) rfl
  refine ⟨by decide, by decide, h.1, h.2.1, ?_, ?_⟩
  · have hb : braceBalance "\x7b\"a\": 1" = 1 := by decide
    have hmem := h.2.2.1.mp (by rw [hb]; decide)
    rw [← hb]
    exact hmem
  · intro hmem
    have hbk : bracketBalance "\x7b\"a\": 1" = 0 := by decide
    exact (h.2.2.2.mpr (by rw [hbk]; exact hmem)) hbk

/-- C7: for a value whose stripped form starts with `[` the probe is exactly
the first 1000 characters of the raw value with `]` appended (with `\x7d` for
a `\x7b` start), the advisory verdict is decided exactly by whether the probe
parses, and the probe outcome never prevents the field from being written —
the written content of both extractors is determined without consulting it. -/
theorem claim_C7_probe_is_advisory (jc : String) :
    (∀ t, pyStrip jc = '[' :: t →
      plausProbe jc ']' = jc.data.take 1000 ++ [']']
      ∧ (plausibility jc = Plaus.looksValid ↔ (jsonLoadsList (plausProbe jc ']')).isSome = true)
      ∧ (plausibility jc = Plaus.validationFailed ↔ (jsonLoadsList (plausProbe jc ']')).isSome = false))
    ∧ (∀ t, pyStrip jc = '\x7b' :: t →
      plausProbe jc '\x7d' = jc.data.take 1000 ++ ['\x7d']
      ∧ (plausibility jc = Plaus.looksValid ↔ (jsonLoadsList (plausProbe jc '\x7d')).isSome = true)
      ∧ (plausibility jc = Plaus.validationFailed ↔ (jsonLoadsList (plausProbe jc '\x7d')).isSome = false))
    ∧ (∀ rows (rn : Nat), 1 ≤ rn → ∀ hlt : rn - 1 < rows.length,
        rows.get ⟨rn - 1, hlt⟩ ≠ [] → max_by_len (rows.get ⟨rn - 1, hlt⟩) ≠ "" →
        (extract_single_row rows rn).written = some (max_by_len (rows.get ⟨rn - 1, hlt⟩)))
    ∧ (∀ rows (j : Nat) (hj : j < rows.length),
        skippable (rows.get ⟨j, hj⟩) = false →
        (j + 1, max_by_len (rows.get ⟨j, hj⟩)) ∈ (extract_all_rows rows none).files) := by
  refine ⟨?_, ?_, ?_, ?_⟩
  · intro t hstrip
    refine ⟨rfl, ?_, ?_⟩ <;>
      (simp only [plausibility]
       rw [hstrip]
       dsimp only
       rw [if_pos rfl]
       by_cases hs : (jsonLoadsList (plausProbe jc ']')).isSome <;> simp [hs])
  · intro t hstrip
    refine ⟨rfl, ?_, ?_⟩ <;>
      (simp only [plausibility]
       rw [hstrip]
       dsimp only
       rw [if_neg (by decide : ¬('\x7b' : Char) = '['), if_pos rfl]
       by_cases hs : (jsonLoadsList (plausProbe jc '\x7d')).isSome <;> simp [hs])
  · intro rows rn h1 hlt hne hjc
    rw [extract_single_row_found rows rn h1 hlt]
    exact (processRow_success rn _ hne hjc).2
  · intro rows j hj hsk
    rw [extract_all_rows, allRowsGo_none]
    dsimp only
    rw [List.nil_append]
    have hmem := filesOf_mem_intro rows 0 j hj hsk
    rw [show j + 1 = 0 + 1 + j from by omega]
    exact hmem

/-- C7 witness at the truncated value `"[1,2"`: the probe is `"[1,2]"`,
which parses, so the value is marked plausible, and it is written verbatim
by the single-row extractor. -/
theorem claim_C7_witness :
    plausProbe "[1,2" ']' = "[1,2".data.take 1000 ++ [']']
    ∧ plausibility "[1,2" = Plaus.looksValid
    ∧ (extract_single_row [["[1,2"]] 1).written = some "[1,2" := by
  have h := claim_C7_probe_is_advisory "[1,2"
  refine ⟨(h.1 ['1', ',', '2'] (by decide)).1, ?_, ?_⟩
  · exact ((h.1 ['1', ',', '2'] (by decide)).2.1).mpr (by decide)
  · have hw := h.2.2.1 [["[1,2"]] 1 (by decide) (by decide) (by decide) (by decide)
    simpa using hw

/-- C9: an extracted field that is a complete parseable JSON document of at
most 1000 characters starting (after stripping) with `\x7b` or `[` always
fails the plausibility probe — the appended closing character is trailing
extra data — so the tool marks it "may not be valid JSON" even though the
post-extraction validator's full parse of the same content succeeds. -/
theorem claim_C9_probe_rejects_complete_json (s : String) (v : JValue)
    (hparse : jsonLoads s = some v) (hlen : s.length ≤ 1000)
    (hstart : (∃ t, pyStrip s = '\x7b' :: t) ∨ (∃ t, pyStrip s = '[' :: t)) :
    plausibility s = Plaus.validationFailed
    ∧ (validate_json_file s).1 = true := by
  have htake : s.data.take 1000 = s.data :=
    List.take_of_length_le (by exact hlen)
  rcases hstart with ⟨t, hstrip⟩ | ⟨t, hstrip⟩
  · obtain ⟨u, hL⟩ := pyStrip_head s '\x7b' t hstrip
    have hhead : (pyStripL s.data).head? = some '\x7b' := by rw [hL]; rfl
    have hfailprobe : jsonLoadsList (s.data ++ ['\x7d']) = none :=
      jsonLoadsList_append_close s.data v '\x7d' hparse (Or.inl hhead) (by decide)
    constructor
    · simp only [plausibility]
      rw [hstrip]
      dsimp only
      rw [if_neg (by decide : ¬('\x7b' : Char) = '['), if_pos rfl]
      have hpr : plausProbe s '\x7d' = s.data ++ ['\x7d'] := by
        rw [plausProbe, htake]
      rw [hpr, hfailprobe]
      rfl
    · simp only [validate_json_file]
      rw [hstrip]
      dsimp only
      rw [if_pos (Or.inr rfl)]
      rw [hparse]
  · obtain ⟨u, hL⟩ := pyStrip_head s '[' t hstrip
    have hhead : (pyStripL s.data).head? = some '[' := by rw [hL]; rfl
    have hfailprobe : jsonLoadsList (s.data ++ [']']) = none :=
      jsonLoadsList_append_close s.data v ']' hparse (Or.inr hhead) (by decide)
    constructor
    · simp only [plausibility]
      rw [hstrip]
      dsimp only
      rw [if_pos rfl]
      have hpr : plausProbe s ']' = s.data ++ [']'] := by
        rw [plausProbe, htake]
      rw [hpr, hfailprobe]
      rfl
    · simp only [validate_json_file]
      rw [hstrip]
      dsimp only
      rw [if_pos (Or.inl rfl)]
      rw [hparse]

/-- C9 witness at the two-character document `"\x7b\x7d"`: it parses as the
empty object, yet the probe `"\x7b\x7d\x7d"` fails, so the quick validation
reports failure while the full validator reports valid. -/
theorem claim_C9_witness :
    plausibility "\x7b\x7d" = Plaus.validationFailed
    ∧ (validate_json_file "\x7b\x7d").1 = true :=
  claim_C9_probe_rejects_complete_json "\x7b\x7d" (JValue.obj []) rfl (by decide)
    (Or.inl ⟨['\x7d'], by decide⟩)

end Salvage
